import Mathlib

/-!
Verification of the rag-pipeline ingestion code (crawl, extract, chunk, embed,
upload).  Strings are modelled as `List Char`; each definition is a shallow
embedding of the correspondingly named Python function of the repository.
Python `str.strip()` is modelled over the ASCII whitespace characters
(space, tab, newline, carriage return, vertical tab, form feed).
-/

namespace RagPipeline

/-- Strings of the source program, modelled as lists of characters. -/
abbrev Str := List Char

/-- Characters of a string literal, used to write concrete `Str` values. -/
def strChars (s : String) : Str := s.data

/-- The characters matched by the regex class `[ \t]`. -/
def isST (c : Char) : Bool := c = ' ' || c = '\t'

/-- ASCII whitespace characters stripped by Python `str.strip()` and matched
by the regex class `\s`. -/
def isPyWs (c : Char) : Bool :=
  c = ' ' || c = '\t' || c = '\n' || c = '\r' || c = Char.ofNat 11 || c = Char.ofNat 12

/-- Sentence terminator characters of the chunker regex class `[.!?]`. -/
def isTermChar (c : Char) : Bool := c = '.' || c = '!' || c = '?'

/-- Python `s.strip()`: remove leading and trailing whitespace. -/
def stripStr (s : Str) : Str := (s.dropWhile isPyWs).rdropWhile isPyWs

/-! ## extractor.py `_normalize_text` -/

/-- `re.sub(r"[ \t]+", " ", text)`: collapse each run of spaces and tabs to a
single space.  The flag records whether the previous character was in a run. -/
def collapseST : Bool → Str → Str
  | _, [] => []
  | b, c :: rest =>
    if isST c then
      if b then collapseST true rest else ' ' :: collapseST true rest
    else c :: collapseST false rest

/-- `re.sub(r"\n[ \t]+", "\n", text)`: delete each run of spaces and tabs that
immediately follows a newline.  The flag records whether we are just past a
newline (and possibly inside the deletable run). -/
def delNlST : Bool → Str → Str
  | _, [] => []
  | b, c :: rest =>
    if b && isST c then delNlST true rest
    else if c = '\n' then '\n' :: delNlST true rest
    else c :: delNlST false rest

/-- `re.sub(r"\n{3,}", "\n\n", text)`: collapse each run of three or more
newlines to exactly two.  `k` counts the newlines already emitted for the
current run (saturating at 2). -/
def collapseNl : Nat → Str → Str
  | _, [] => []
  | k, c :: rest =>
    if c = '\n' then
      if 2 ≤ k then collapseNl k rest else '\n' :: collapseNl (k + 1) rest
    else c :: collapseNl 0 rest

/-- Python `text.split("\n")`. -/
def splitNl : Str → List Str
  | [] => [[]]
  | c :: rest =>
    if c = '\n' then [] :: splitNl rest else (splitNl rest).modifyHead (c :: ·)

/-- Python `"\n".join(lines)`. -/
def joinNl : List Str → Str
  | [] => []
  | [l] => l
  | l :: ls => l ++ '\n' :: joinNl ls

/-- `DocusaurusContentExtractor._normalize_text`: collapse space/tab runs,
delete space/tab runs after newlines, collapse runs of three or more newlines
to two, strip every line, keep only the non-empty lines, join them with
newlines and strip the result.  Empty input is returned unchanged. -/
def normalize_text (t : Str) : Str :=
  if t = [] then []
  else
    stripStr (joinNl
      ((((splitNl (collapseNl 0 (delNlST false (collapseST false t)))).map
        stripStr).filter (fun l => l ≠ []))))

/-- The list of lines of the normalized text, before the final join. -/
def normLines (t : Str) : List Str :=
  (((splitNl (collapseNl 0 (delNlST false (collapseST false t)))).map
    stripStr).filter (fun l => l ≠ []))

/-- Adjacency invariant of normalized text: no two adjacent space/tab
characters (runs of them are collapsed). -/
def R1 (a b : Char) : Prop := ¬(isST a = true ∧ isST b = true)

/-- Adjacency invariant of normalized text: no space/tab directly after a
newline. -/
def R2 (a b : Char) : Prop := a = '\n' → isST b = false

/-- Adjacency invariant of normalized text: no two adjacent newlines. -/
def R3 (a b : Char) : Prop := ¬(a = '\n' ∧ b = '\n')

/-! ## chunker.py -/

/-- `count_tokens`: the 4-characters-per-token approximation. -/
def count_tokens (s : Str) : Nat := s.length / 4

/-- Worker for `re.split(r'\n\n+', text)`.  `segRev` is the current segment in
reverse; `nl` counts newlines seen but not yet classified (a run of two or more
is a separator, a single one belongs to the segment). -/
def splitParasAux : Str → Str → Nat → List Str
  | [], segRev, nl =>
    if 2 ≤ nl then [segRev.reverse, []]
    else [(List.replicate nl '\n' ++ segRev).reverse]
  | c :: rest, segRev, nl =>
    if c = '\n' then splitParasAux rest segRev (nl + 1)
    else if 2 ≤ nl then segRev.reverse :: splitParasAux rest [c] 0
    else splitParasAux rest (c :: (List.replicate nl '\n' ++ segRev)) 0

/-- `re.split(r'\n\n+', text)`: split on runs of two or more newlines. -/
def splitParas (s : Str) : List Str := splitParasAux s [] 0

mutual

/-- Worker for `re.split(r'(?<=[.!?])\s+', para)`: scan inside a segment
(kept in reverse); a whitespace character immediately preceded by a sentence
terminator starts a separator (the terminator stays with the left segment). -/
def sentGo : Str → Str → List Str
  | [], segRev => [segRev.reverse]
  | c :: rest, segRev =>
    if isPyWs c && (match segRev with | t :: _ => isTermChar t | [] => false) then
      sentSkip rest segRev
    else sentGo rest (c :: segRev)

/-- Worker for the sentence splitter: consume the whitespace run of a
separator, then start the next segment. -/
def sentSkip : Str → Str → List Str
  | [], segRev => [segRev.reverse, []]
  | c :: rest, segRev =>
    if isPyWs c then sentSkip rest segRev
    else segRev.reverse :: sentGo rest [c]

end

/-- `re.split(r'(?<=[.!?])\s+', para)`. -/
def splitSents (s : Str) : List Str := sentGo s []

/-- Python `s[-k:]` for `k > 0`: the last `min k (length s)` characters. -/
def takeRight (k : Nat) (l : Str) : Str := l.drop (l.length - k)

/-- The mutable state of `TextChunker._split_text`: emitted chunks, the
accumulator `current_chunk`, and its running token count `current_tokens`. -/
structure SplitSt where
  chunks : List Str
  cur : Str
  curTok : Nat

/-- One iteration of the `_split_text` accumulation loop for one unit (a
sentence, joined by `" "`, or a paragraph, joined by `"\n\n"`): if adding the
unit would exceed `chunk_size` tokens, emit the stripped current chunk and
re-seed it with the last `overlap * 4` characters; then append the unit. -/
def addUnit (cs ov : Nat) (sep : Str) (st : SplitSt) (u : Str) : SplitSt :=
  let ut := count_tokens u
  let st1 :=
    if cs < st.curTok + ut then
      let chunks :=
        if st.cur ≠ [] then st.chunks ++ [stripStr st.cur] else st.chunks
      if 0 < ov ∧ st.cur ≠ [] then
        let ovl := takeRight (ov * 4) st.cur
        SplitSt.mk chunks ovl (count_tokens ovl)
      else SplitSt.mk chunks [] 0
    else st
  SplitSt.mk st1.chunks
    (st1.cur ++ (if st1.cur ≠ [] then sep else []) ++ u) (st1.curTok + ut)

/-- The body of the `_split_text` paragraph loop: strip the paragraph, skip it
if empty; if it exceeds `1.5 * chunk_size` tokens (exactly:
`2 * tokens > 3 * chunk_size`, the float comparison being exact here), iterate
its sentences instead, otherwise add the paragraph as one unit. -/
def procPara (cs ov : Nat) (st : SplitSt) (para : Str) : SplitSt :=
  let para := stripStr para
  if para = [] then st
  else
    let pt := count_tokens para
    if 3 * cs < 2 * pt then
      (splitSents para).foldl
        (fun st sRaw =>
          let s := stripStr sRaw
          if s = [] then st else addUnit cs ov [' '] st s)
        st
    else addUnit cs ov ['\n', '\n'] st para

/-- `TextChunker._split_text`: split into paragraphs, accumulate them (or
their sentences, for oversized paragraphs) into chunks, emit the final chunk,
and fall back to the truncated text when no chunk was produced. -/
def split_text (cs ov : Nat) (text : Str) : List Str :=
  let st := (splitParas text).foldl (procPara cs ov) (SplitSt.mk [] [] 0)
  let chunks :=
    if st.cur ≠ [] then st.chunks ++ [stripStr st.cur] else st.chunks
  if chunks = [] then [text.take (cs * 4)] else chunks

/-- Python `full.find(sub, start)` (as an `Option` instead of `-1`). -/
def findFrom (full sub : Str) (start : Nat) : Option Nat :=
  if h : start ≤ full.length then
    if sub.isPrefixOf (full.drop start) then some start
    else if start = full.length then none else findFrom full sub (start + 1)
  else none
termination_by full.length + 1 - start

/-- `TextChunker._get_char_positions`: locate each chunk in the original text
starting from a cursor that advances by `chunk_length - overlap * 4`
(truncated subtraction models the clamping of a negative Python cursor). -/
def get_char_positions (ov : Nat) (full : Str) : List Str → Nat → List (Nat × Nat)
  | [], _ => []
  | chunk :: rest, pos =>
    let (s, e) :=
      match findFrom full chunk pos with
      | some s => (s, s + chunk.length)
      | none => (pos, pos + chunk.length)
    (s, e) :: get_char_positions ov full rest (e - (if 0 < ov then ov * 4 else 0))

/-! ## models/document.py -/

/-- `DocumentPage` (the fields the pipeline reads; timestamps are carried as
strings).  `content_hash` is the SHA-256 hex digest computed by pydantic; the
hash function itself is opaque to the claims and is kept abstract where it is
needed. -/
structure DocumentPage where
  url : Str
  title : Str
  extracted_text : Str
  content_hash : Str
  metadata : List (Str × Str)

/-- The pydantic validation of `DocumentPage`: `title` at most 500 characters,
`extracted_text` non-empty and not whitespace-only. -/
def DocumentPage.valid (d : DocumentPage) : Prop :=
  d.title.length ≤ 500 ∧ 1 ≤ d.extracted_text.length ∧
    stripStr d.extracted_text ≠ []

instance (d : DocumentPage) : Decidable d.valid := by
  unfold DocumentPage.valid; infer_instance

/-! ## models/chunk.py -/

/-- `TextChunk` (indices and counts as naturals; `metadata` is a
string-to-string map as produced by `from_document`). -/
structure TextChunk where
  chunk_id : Str
  text : Str
  source_url : Str
  source_title : Str
  chunk_index : Nat
  total_chunks : Nat
  token_count : Nat
  char_start : Nat
  char_end : Nat
  metadata : List (Str × Str)

/-- The validating construction of a `TextChunk`, in pydantic's field order:
`text` at least 10 characters, `source_title` at most 500, `total_chunks`
positive, `token_count` at least 1, `char_end` positive, then the custom
validator `char_end > char_start`.  (The source's `chunk_index <
total_chunks` validator is a no-op: it runs before `total_chunks` is set, so
its `info.data.get("total_chunks", 0)` guard is always falsy.) -/
def TextChunk.make (chunk_id text source_url source_title : Str)
    (chunk_index total_chunks token_count char_start char_end : Nat)
    (metadata : List (Str × Str)) : Except Str TextChunk :=
  if text.length < 10 then .error (strChars "text too short")
  else if 500 < source_title.length then .error (strChars "title too long")
  else if total_chunks = 0 then .error (strChars "total_chunks must be positive")
  else if token_count = 0 then .error (strChars "token_count must be at least 1")
  else if char_end = 0 then .error (strChars "char_end must be positive")
  else if char_end ≤ char_start then
    .error (strChars "char_end must be greater than char_start")
  else
    .ok (TextChunk.mk chunk_id text source_url source_title chunk_index
      total_chunks token_count char_start char_end metadata)

/-- `TextChunk.generate_id`, with the 16-character md5 hex digest of the url
abstracted as `h16`. -/
def TextChunk.generate_id (h16 : Str → Str) (url : Str) (i : Nat) : Str :=
  h16 url ++ '_' :: (toString i).data

/-- Left-to-right effectful map: the first validation error aborts, as a
raised exception does in a Python list comprehension. -/
def mapExcept (f : α → Except Str β) : List α → Except Str (List β)
  | [] => .ok []
  | a :: rest =>
    match f a with
    | .error e => .error e
    | .ok b => (mapExcept f rest).map (b :: ·)

/-- Worker for `TextChunk.from_document`: build the chunk at each index. -/
def fromDocumentGo (h16 : Str → Str) (d : DocumentPage) (total : Nat)
    (i : Nat) : List (Str × Nat × Nat × Nat) → Except Str (List TextChunk)
  | [] => .ok []
  | (ct, tc, s, e) :: rest =>
    match TextChunk.make (TextChunk.generate_id h16 d.url i) ct d.url d.title
        i total tc s e
        [(strChars "doc_type",
          ((d.metadata.lookup (strChars "doc_type")).getD (strChars "unknown"))),
         (strChars "content_hash", d.content_hash)] with
    | .error err => .error err
    | .ok c => (fromDocumentGo h16 d total (i + 1) rest).map (c :: ·)

/-- `TextChunk.from_document`: one validated `TextChunk` per split chunk. -/
def TextChunk.from_document (h16 : Str → Str) (d : DocumentPage)
    (chunks : List Str) (token_counts : List Nat)
    (char_positions : List (Nat × Nat)) : Except Str (List TextChunk) :=
  fromDocumentGo h16 d chunks.length 0
    (chunks.zip (token_counts.zip char_positions) |>.map
      (fun p => (p.1, p.2.1, p.2.2.1, p.2.2.2)))

/-- `TextChunker.chunk_document`: empty text yields no chunks, otherwise split
the text and build validated `TextChunk`s (a pydantic validation error
propagates). -/
def chunk_document (h16 : Str → Str) (cs ov : Nat) (d : DocumentPage) :
    Except Str (List TextChunk) :=
  if d.extracted_text = [] then .ok []
  else
    let chunks := split_text cs ov d.extracted_text
    if chunks = [] then .ok []
    else
      TextChunk.from_document h16 d chunks (chunks.map count_tokens)
        (get_char_positions ov d.extracted_text chunks 0)

/-! ## models/embedding.py -/

/-- A payload value of a vector record (strings or integers). -/
inductive PVal where
  | s (v : Str)
  | n (v : Nat)
deriving DecidableEq

/-- `config.embedding_dimensions`: hard-coded to 1024 for
`embed-english-v3.0`. -/
def embedding_dimensions : Nat := 1024

/-- `Embedding` (vector entries as rationals; `created_at` as a string). -/
structure Embedding where
  chunk_id : Str
  vector : List ℚ
  model : Str
  created_at : Str
  chunk_ref : Option TextChunk

/-- The validating construction of an `Embedding`: the vector must have
exactly 1024 entries (the `min_length`/`max_length` field constraint and the
`validate_vector_dimensions` validator). -/
def Embedding.make (chunk_id : Str) (vector : List ℚ) (model created_at : Str)
    (chunk_ref : Option TextChunk) : Except Str Embedding :=
  if vector.length ≠ 1024 then
    .error (strChars "Vector must have 1024 dimensions")
  else .ok (Embedding.mk chunk_id vector model created_at chunk_ref)

/-- `VectorRecord` (payload as an ordered key-value list). -/
structure VectorRecord where
  id : Str
  vector : List ℚ
  payload : List (Str × PVal)

/-- `REQUIRED_PAYLOAD_FIELDS`. -/
def REQUIRED_PAYLOAD_FIELDS : List Str :=
  [strChars "text", strChars "url", strChars "title", strChars "chunk_index",
   strChars "total_chunks", strChars "token_count", strChars "model",
   strChars "created_at"]

/-- The validating construction of a `VectorRecord`, in pydantic's field
order: the vector must have exactly 1024 entries, and the payload must contain
every required field. -/
def VectorRecord.make (id : Str) (vector : List ℚ)
    (payload : List (Str × PVal)) : Except Str VectorRecord :=
  if vector.length ≠ 1024 then
    .error (strChars "Vector must have 1024 dimensions")
  else if REQUIRED_PAYLOAD_FIELDS.any
      (fun f => (payload.lookup f).isNone) then
    .error (strChars "Missing required payload fields")
  else .ok (VectorRecord.mk id vector payload)

/-- `Embedding.to_vector_record`: fails when `chunk_ref` is absent, otherwise
builds the payload from the referenced chunk and validates the record. -/
def Embedding.to_vector_record (e : Embedding) : Except Str VectorRecord :=
  match e.chunk_ref with
  | none => .error (strChars "chunk_ref is required to create VectorRecord")
  | some c =>
    VectorRecord.make e.chunk_id e.vector
      ([(strChars "text", PVal.s c.text),
        (strChars "url", PVal.s c.source_url),
        (strChars "title", PVal.s c.source_title),
        (strChars "chunk_index", PVal.n c.chunk_index),
        (strChars "total_chunks", PVal.n c.total_chunks),
        (strChars "token_count", PVal.n c.token_count),
        (strChars "model", PVal.s e.model),
        (strChars "created_at", PVal.s e.created_at)] ++
       c.metadata.map (fun kv => (kv.1, PVal.s kv.2)))

/-! ## embedder.py -/

/-- Worker for batching: `range(0, total, batch_size)` slices, with the list
length as recursion fuel (the source's batch sizes are positive). -/
def batchesGo (n : Nat) : Nat → List α → List (List α)
  | 0, _ => []
  | _, [] => []
  | fuel + 1, l => l.take n :: batchesGo n fuel (l.drop n)

/-- The `l[i : i + n]` batches of a list, for `i = 0, n, 2n, ...`. -/
def batchesOf (n : Nat) (l : List α) : List (List α) := batchesGo n l.length l

/-- One batch step of `CohereEmbedder.embed_chunks`: zip the batch with the
vectors the provider returned for it and build validated `Embedding`s
carrying the chunk as `chunk_ref`; an earlier or current validation error is
fatal for the run. -/
def embedStep (respond : List Str → List (List ℚ)) (model created_at : Str)
    (acc : Except Str (List Embedding)) (batch : List TextChunk) :
    Except Str (List Embedding) :=
  match acc with
  | .error e => .error e
  | .ok sofar =>
    let vecs := respond (batch.map (·.text))
    (mapExcept
      (fun p => Embedding.make p.1.chunk_id p.2 model created_at (some p.1))
      (batch.zip vecs)).map (sofar ++ ·)

/-- `CohereEmbedder.embed_chunks`, with the provider call abstracted as
`respond` (texts in, one vector per text out): process batch by batch. -/
def embed_chunks (batchSize : Nat) (respond : List Str → List (List ℚ))
    (model created_at : Str) (chunks : List TextChunk) :
    Except Str (List Embedding) :=
  (batchesOf batchSize chunks).foldl (embedStep respond model created_at)
    (.ok [])

/-- One line of the embeddings JSONL file, as read back by
`load_embeddings_from_jsonl` (which ignores the metadata object). -/
structure JsonlRec where
  chunk_id : Str
  vector : List ℚ
  model : Str
  created_at : Str

/-- Worker for `load_embeddings_from_jsonl`: `count` is the number of
embeddings loaded so far; a non-zero `limit` stops the loop. -/
def loadEmbedGo (limit : Option Nat) (count : Nat) :
    List JsonlRec → Except Str (List Embedding)
  | [] => .ok []
  | r :: rest =>
    if (match limit with | some k => decide (k ≠ 0 ∧ k ≤ count) | none => false) then
      .ok []
    else
      match Embedding.make r.chunk_id r.vector r.model r.created_at none with
      | .error e => .error e
      | .ok emb => (loadEmbedGo limit (count + 1) rest).map (emb :: ·)

/-- `embedder.load_embeddings_from_jsonl`: rebuild `Embedding`s from parsed
JSONL records.  No `chunk_ref` is set on the loaded embeddings. -/
def load_embeddings_from_jsonl (limit : Option Nat) (records : List JsonlRec) :
    Except Str (List Embedding) :=
  loadEmbedGo limit 0 records

/-! ## vector_store.py -/

/-- The Qdrant point id each record receives in
`QdrantVectorStore._upload_batch`: batches of `batch_size = 100`, and within
each batch `PointStruct(id=idx, ...)` for `idx = enumerate(records)` — the
position inside the batch, not an id derived from `chunk_id`. -/
def upload_point_ids (records : List VectorRecord) : List (Nat × VectorRecord) :=
  ((batchesOf 100 records).map List.enum).flatten

/-! ## utils/retry.py and crawler.py fetch_page -/

/-- The exception taxonomy seen by the crawler's fetch: an HTTP error response
(`aiohttp.ClientResponseError`, raised by `raise_for_status`, carrying the
status code), a transport error (`aiohttp.ClientConnectionError`),
`asyncio.TimeoutError`, or anything else. -/
inductive FetchErr where
  | clientResponseError (status : Nat)
  | clientConnectionError
  | timeoutError
  | otherError
deriving DecidableEq

/-- Membership in the `aiohttp.ClientError` exception subtree:
`ClientResponseError` (any status, including 4xx) and connection errors are
both subclasses of `ClientError`. -/
def isAiohttpClientError : FetchErr → Bool
  | .clientResponseError _ => true
  | .clientConnectionError => true
  | _ => false

/-- The `exceptions=(aiohttp.ClientError, asyncio.TimeoutError)` tuple that
`fetch_page` passes to `retry_with_exponential_backoff`. -/
def fetch_retryable (e : FetchErr) : Bool :=
  isAiohttpClientError e || e = FetchErr.timeoutError

/-- `fetch_page` passes `max_retries=3` to the retry helper. -/
def fetch_max_retries : Nat := 3

/-- `retry_with_exponential_backoff`, with attempt outcomes abstracted as `f`
(attempt number to result): return the first success; re-attempt on an
exception matching `retryable` while retries remain; raise otherwise.  The
result is paired with the number of attempts made. -/
def retryGo (retryable : FetchErr → Bool) (f : Nat → Except FetchErr α)
    (attempt : Nat) : Nat → Except FetchErr α × Nat
  | 0 => (f attempt, attempt + 1)
  | remaining + 1 =>
    match f attempt with
    | .ok a => (.ok a, attempt + 1)
    | .error e =>
      if retryable e then retryGo retryable f (attempt + 1) remaining
      else (.error e, attempt + 1)

/-- Run the retry loop from attempt 0 with `maxRetries` retries allowed. -/
def retry_run (retryable : FetchErr → Bool) (maxRetries : Nat)
    (f : Nat → Except FetchErr α) : Except FetchErr α × Nat :=
  retryGo retryable f 0 maxRetries

/-- `DocusaurusCrawler.fetch_page`: one page fetch under the retry policy
(max 3 retries, exceptions `aiohttp.ClientError` and `TimeoutError`). -/
def fetch_page_run (f : Nat → Except FetchErr Str) : Except FetchErr Str × Nat :=
  retry_run fetch_retryable fetch_max_retries f

/-- The stringified error recorded by `mark_failed`. -/
def errStr : FetchErr → Str
  | .clientResponseError st => strChars "HTTP " ++ (toString st).data
  | .clientConnectionError => strChars "connection error"
  | .timeoutError => strChars "timeout"
  | .otherError => strChars "error"

/-! ## crawler.py CrawlState and crawl_all -/

/-- `CrawlState` (the sets that drive resume; `urls_failed` is the
url-to-error dict as an association list). -/
structure CrawlState where
  urls_discovered : List Str
  urls_completed : List Str
  urls_failed : List (Str × Str)
  total_pages : Nat
  completed_pages : Nat

/-- `CrawlState.is_completed`: membership test in the completed list. -/
def CrawlState.is_completed (st : CrawlState) (url : Str) : Bool :=
  st.urls_completed.contains url

/-- Python dict assignment `d[k] = v` on an association list. -/
def dictSet (d : List (Str × Str)) (k v : Str) : List (Str × Str) :=
  if (d.lookup k).isSome then
    d.map (fun kv => if kv.1 = k then (k, v) else kv)
  else d ++ [(k, v)]

/-- `CrawlState.mark_completed`. -/
def CrawlState.mark_completed (st : CrawlState) (url : Str) : CrawlState :=
  if st.urls_completed.contains url then st
  else
    { st with
      urls_completed := st.urls_completed ++ [url]
      completed_pages := st.completed_pages + 1 }

/-- `CrawlState.mark_failed`. -/
def CrawlState.mark_failed (st : CrawlState) (url err : Str) : CrawlState :=
  { st with urls_failed := dictSet st.urls_failed url err }

/-- `CrawlState.get_pending_urls`: discovered minus completed minus failed.
(Defined on the state, but not called by `crawl_all`.) -/
def CrawlState.get_pending_urls (st : CrawlState) : List Str :=
  st.urls_discovered.filter
    (fun u => !st.urls_completed.contains u &&
      !(st.urls_failed.map Prod.fst).contains u)

/-- The pending list `crawl_all` actually builds and fetches:
`[url for url in urls if not self.state.is_completed(url)]`, truncated to
`max_pages` when that argument is truthy. -/
def crawl_all_pending (st : CrawlState) (urls : List Str)
    (maxPages : Option Nat) : List Str :=
  let pending := urls.filter (fun u => !st.is_completed u)
  match maxPages with
  | some m => if m ≠ 0 then pending.take m else pending
  | none => pending

/-- The outcome of one `crawl_with_semaphore` task for `url`: on fetch
success mark the url completed, on a terminal fetch error mark it failed with
the stringified error. -/
def crawl_task (st : CrawlState) (url : Str)
    (f : Nat → Except FetchErr Str) : CrawlState :=
  match (fetch_page_run f).1 with
  | .ok _ => st.mark_completed url
  | .error e => st.mark_failed url (errStr e)

/-! ## crawler.py fetch_sitemap -/

/-- An XML element after namespace stripping: tag, optional text, children. -/
inductive Xml where
  | el (tag : Str) (text : Option Str) (children : List Xml)

/-- The tag of an element. -/
def Xml.tag : Xml → Str
  | .el t _ _ => t

/-- The text of an element. -/
def Xml.textOf : Xml → Option Str
  | .el _ tx _ => tx

/-- The children of an element. -/
def Xml.children : Xml → List Xml
  | .el _ _ ch => ch

mutual

/-- All elements of a subtree, the root included (document order):
`xpath("//*")`-style traversal. -/
def descendantsSelf : Xml → List Xml
  | .el t tx ch => .el t tx ch :: descendantsList ch

/-- All elements of a forest of subtrees, in document order. -/
def descendantsList : List Xml → List Xml
  | [] => []
  | x :: xs => descendantsSelf x ++ descendantsList xs

end

/-- `etree` `find(tag)`: the first direct child with the given tag. -/
def findChild (t : Str) (x : Xml) : Option Xml :=
  (x.children.filter (fun c => c.tag = t)).head?

/-- Whether `needle` occurs as a contiguous substring of `hay`
(Python `needle in hay`). -/
def containsStr (hay needle : Str) : Bool :=
  if needle.isPrefixOf hay then true
  else
    match hay with
    | [] => false
    | _ :: t => containsStr t needle

/-- The `loc` text extracted from one element of a nested sitemap if it is a
`url` element with a non-empty first descendant `loc` text. -/
def nestedLocOf (u : Xml) : Option Str :=
  if u.tag = strChars "url" then
    match (descendantsList u.children).find?
        (fun d => d.tag = strChars "loc") with
    | some locEl =>
      match locEl.textOf with
      | some l => if l ≠ [] then some l else none
      | none => none
    | none => none
  else none

/-- `DocusaurusCrawler._fetch_nested_sitemap` on a fetched-and-parsed tree:
collect `loc` text of every `url` element anywhere in the tree
(`xpath("//url")`, then `find(".//loc")`), with no `/docs/` filtering. -/
def nested_sitemap_urls (t : Xml) : List Str :=
  (descendantsSelf t).filterMap nestedLocOf

/-- `DocusaurusCrawler.fetch_sitemap` after the root sitemap has been fetched
and parsed: follow each `<sitemap><loc>` child whose text is non-empty and
does not contain `"sitemap.xml"` (`env` maps a nested sitemap url to its
fetched tree, `none` modelling a failed fetch, which contributes no urls),
then keep each top-level `<url><loc>` that contains `/docs/` or ends in
`/docs`.  Nested urls are not passed through the `/docs/` filter. -/
def fetch_sitemap_urls (env : Str → Option Xml) (tree : Xml) : List Str :=
  let nested :=
    ((tree.children.filter (fun c => c.tag = strChars "sitemap")).map
      (fun sm =>
        match findChild (strChars "loc") sm with
        | some locEl =>
          match locEl.textOf with
          | some l =>
            if l ≠ [] ∧ ¬containsStr l (strChars "sitemap.xml") then
              match env l with
              | some t => nested_sitemap_urls t
              | none => []
            else []
          | none => []
        | none => [])).flatten
  let top :=
    (tree.children.filter (fun c => c.tag = strChars "url")).filterMap
      (fun ue =>
        match findChild (strChars "loc") ue with
        | some locEl =>
          match locEl.textOf with
          | some l =>
            if l ≠ [] ∧
                (containsStr l (strChars "/docs/") ∨
                  (strChars "/docs").isSuffixOf l) then
              some l
            else none
          | none => none
        | none => none)
  nested ++ top

/-! ## Concrete instances used by individual claims -/

/-- A crawl state with one completed and one failed url among three. -/
def c3_state : CrawlState :=
  CrawlState.mk [strChars "u1", strChars "u2", strChars "u3"] [strChars "u1"]
    [(strChars "u2", strChars "boom")] 3 1

/-- A valid page whose non-empty extracted text has fewer than 10 chars. -/
def c9_doc : DocumentPage :=
  DocumentPage.mk (strChars "https://d/p") (strChars "Title") (strChars "short")
    (strChars "hash") []

/-- A JSONL record with a well-formed 1024-entry vector. -/
def c10_rec : JsonlRec :=
  JsonlRec.mk (strChars "c1") (List.replicate 1024 (0 : ℚ)) (strChars "m")
    (strChars "t")

/-- The embedding `load_embeddings_from_jsonl` rebuilds from `c10_rec`. -/
def c10_emb : Embedding :=
  Embedding.mk (strChars "c1") (List.replicate 1024 (0 : ℚ)) (strChars "m")
    (strChars "t") none

/-- A valid chunk used to drive the embedder. -/
def c6_chunk : TextChunk :=
  TextChunk.mk (strChars "c1") (strChars "0123456789") (strChars "u")
    (strChars "T") 0 1 2 0 10 []

/-- A vector record used to fill upload batches. -/
def c1_rec : VectorRecord :=
  VectorRecord.mk (strChars "r") (List.replicate 1024 (0 : ℚ)) []

/-- A `<url><loc>u</loc></url>` sitemap entry. -/
def mkUrlEl (u : Str) : Xml :=
  .el (strChars "url") none [.el (strChars "loc") (some u) []]

/-- A `<urlset>` tree with one `<url>` entry per given location. -/
def mkUrlset (us : List Str) : Xml :=
  .el (strChars "urlset") none (us.map mkUrlEl)

/-- A `<sitemap><loc>l</loc></sitemap>` child of a sitemap index. -/
def mkSitemapRef (l : Str) : Xml :=
  .el (strChars "sitemap") none [.el (strChars "loc") (some l) []]

/-- A sitemap index with two nested-sitemap references. -/
def mkSitemapIndex (l1 l2 : Str) : Xml :=
  .el (strChars "sitemapindex") none [mkSitemapRef l1, mkSitemapRef l2]

/-- Nested sitemap locations that contain the substring `sitemap.xml`. -/
def c7_locA : Str := strChars "https://s/a/sitemap.xml"

/-- Second such location. -/
def c7_locB : Str := strChars "https://s/b/sitemap.xml"

/-- Three urls served by the first nested sitemap. -/
def c7_usA : List Str :=
  [strChars "https://s/a/1", strChars "https://s/a/2", strChars "https://s/a/3"]

/-- Three urls served by the second nested sitemap. -/
def c7_usB : List Str :=
  [strChars "https://s/b/1", strChars "https://s/b/2", strChars "https://s/b/3"]

/-- The fetch environment serving both nested sitemaps of the counterexample. -/
def c7_env (l : Str) : Option Xml :=
  if l = c7_locA then some (mkUrlset c7_usA)
  else if l = c7_locB then some (mkUrlset c7_usB)
  else none

/-- Nested sitemap locations that avoid the substring `sitemap.xml`. -/
def c7_locA2 : Str := strChars "https://s/a/sm0.xml"

/-- Second such location. -/
def c7_locB2 : Str := strChars "https://s/b/sm1.xml"

/-- The fetch environment for the witness. -/
def c7_env2 (l : Str) : Option Xml :=
  if l = c7_locA2 then some (mkUrlset c7_usA)
  else if l = c7_locB2 then some (mkUrlset c7_usB)
  else none

end RagPipeline

namespace RagPipeline

/-! # Theorems -/

/-- Updating every entry at key `k` makes `k` look up to the new value when
the key was present. -/
lemma lookup_map_update (k v : Str) :
    ∀ d : List (Str × Str),
      (d.map (fun kv => if kv.1 = k then (k, v) else kv)).lookup k =
        if (d.lookup k).isSome then some v else none := by
  intro d
  induction d with
  | nil => simp [List.lookup]
  | cons kv rest ih =>
    obtain ⟨a, b⟩ := kv
    simp only [List.map_cons]
    by_cases hk : a = k
    · rw [if_pos hk]
      have hbk : (k == a) = true := by rw [hk]; exact beq_self_eq_true k
      simp [List.lookup, hbk, beq_self_eq_true]
    · rw [if_neg hk]
      have hbk : (k == a) = false :=
        beq_eq_false_iff_ne.2 (fun he => hk he.symm)
      simp only [List.lookup, hbk, ih]

/-- Appending a fresh binding makes its key look up to its value. -/
lemma lookup_append_self (k v : Str) :
    ∀ d : List (Str × Str), d.lookup k = none →
      (d ++ [(k, v)]).lookup k = some v := by
  intro d
  induction d with
  | nil => simp [List.lookup]
  | cons kv rest ih =>
    intro h
    obtain ⟨a, b⟩ := kv
    cases hba : (k == a) with
    | true => simp [List.lookup, hba] at h
    | false =>
      simp only [List.lookup, hba] at h
      simp only [List.cons_append, List.lookup, hba]
      exact ih h

/-- Python dict assignment makes the key look up to the new value. -/
lemma lookup_dictSet (d : List (Str × Str)) (k v : Str) :
    (dictSet d k v).lookup k = some v := by
  unfold dictSet
  by_cases h : (d.lookup k).isSome
  · rw [if_pos h, lookup_map_update, if_pos h]
  · rw [if_neg h]
    exact lookup_append_self k v d (Option.not_isSome_iff_eq_none.1 h)

/-- A persistently failing retryable attempt runs `maxRetries + 1` times and
surfaces the error. -/
lemma retryGo_persistent (retryable : FetchErr → Bool) (e : FetchErr)
    (h : retryable e = true) (a : Nat) :
    ∀ rem, retryGo (α := Str) retryable (fun _ => .error e) a rem =
      (.error e, a + rem + 1) := by
  intro rem
  induction rem generalizing a with
  | zero => simp [retryGo]
  | succ n ih => simp [retryGo, h, ih (a + 1)]; omega

/-- C5 (counterexample): an HTTP 404 client-error response is in the retried
exception class, and a fetch that keeps returning it makes 4 attempts — not
the single attempt the claim describes. -/
theorem C5_counterexample :
    fetch_retryable (FetchErr.clientResponseError 404) = true ∧
    (fetch_page_run (fun _ => .error (FetchErr.clientResponseError 404))).2 = 4 ∧
    (4 : Nat) ≠ 1 := by
  refine ⟨rfl, rfl, by decide⟩

/-- C5 (amended): a 4xx response error is an `aiohttp.ClientError`, hence in
`fetch_page`'s retried exception tuple; a persistent retryable error is
attempted `max_retries + 1 = 4` times and then becomes a per-item failure
recorded under the url with the stringified error. -/
theorem C5_client_errors_retried :
    (∀ status, fetch_retryable (FetchErr.clientResponseError status) = true) ∧
    (∀ e, fetch_retryable e = true → ∀ (st : CrawlState) (url : Str),
      fetch_page_run (fun _ => .error e) = (.error e, fetch_max_retries + 1) ∧
      (crawl_task st url (fun _ => .error e)).urls_failed.lookup url =
        some (errStr e)) := by
  constructor
  · intro status; rfl
  · intro e he st url
    have hrun : fetch_page_run (fun _ => .error e) =
        (.error e, fetch_max_retries + 1) := by
      unfold fetch_page_run retry_run
      rw [retryGo_persistent fetch_retryable e he 0]
      simp
    refine ⟨hrun, ?_⟩
    unfold crawl_task
    rw [hrun]
    exact lookup_dictSet st.urls_failed url (errStr e)

/-- C5 (witness): the amended theorem at a concrete 404 failure. -/
theorem C5_witness :
    fetch_retryable (FetchErr.clientResponseError 404) = true ∧
    (fetch_page_run (fun _ => .error (FetchErr.clientResponseError 404)) =
        (.error (FetchErr.clientResponseError 404), fetch_max_retries + 1) ∧
      (crawl_task (CrawlState.mk [] [] [] 0 0) (strChars "u")
          (fun _ => .error (FetchErr.clientResponseError 404))).urls_failed.lookup
          (strChars "u") =
        some (errStr (FetchErr.clientResponseError 404))) :=
  ⟨rfl, C5_client_errors_retried.2 (FetchErr.clientResponseError 404) rfl
    (CrawlState.mk [] [] [] 0 0) (strChars "u")⟩

/-- C3 (counterexample): with `u1` completed and `u2` recorded as failed, the
pending list `crawl_all` builds from the discovered set still contains `u2`,
although `u2` is in the failed map; `get_pending_urls` (which `crawl_all` does
not call) would have excluded it. -/
theorem C3_counterexample :
    strChars "u2" ∈ crawl_all_pending c3_state c3_state.urls_discovered none ∧
    (c3_state.urls_failed.map Prod.fst).contains (strChars "u2") = true ∧
    c3_state.get_pending_urls = [strChars "u3"] := by
  refine ⟨?_, by decide, by decide⟩
  decide

/-- C3 (amended): the set of URLs `crawl_all` fetches is the input set minus
the completed set only; it is computed by `is_completed` alone and is
invariant under the state's failed map, so failed urls are fetched again. -/
theorem C3_pending_ignores_failed :
    ∀ (st : CrawlState) (urls : List Str) (u : Str),
      (u ∈ crawl_all_pending st urls none ↔
        u ∈ urls ∧ st.is_completed u = false) ∧
      (∀ f, crawl_all_pending (CrawlState.mk st.urls_discovered
          st.urls_completed f st.total_pages st.completed_pages) urls none =
        crawl_all_pending st urls none) := by
  intro st urls u
  constructor
  · simp [crawl_all_pending, List.mem_filter]
  · intro f
    simp [crawl_all_pending, CrawlState.is_completed]

/-- C3 (witness): the amended theorem at the concrete crawl state, showing
the failed url `u2` is in the fetched set. -/
theorem C3_witness :
    strChars "u2" ∈ crawl_all_pending c3_state c3_state.urls_discovered none ↔
      strChars "u2" ∈ c3_state.urls_discovered ∧
        c3_state.is_completed (strChars "u2") = false :=
  (C3_pending_ignores_failed c3_state c3_state.urls_discovered
    (strChars "u2")).1

/-- C9: a valid `DocumentPage` whose non-empty text is shorter than 10
characters makes `chunk_document` fail with the `TextChunk` minimum-length
validation error (for any url-hash function and the default chunking
configuration), instead of returning chunks. -/
theorem C9_chunk_document_rejects_short_text :
    ∀ h16 : Str → Str,
      DocumentPage.valid c9_doc ∧
      chunk_document h16 512 50 c9_doc = .error (strChars "text too short") := by
  intro h16
  exact ⟨by decide, rfl⟩

/-- C9 (witness): the theorem at the identity url-hash function. -/
theorem C9_witness :
    DocumentPage.valid c9_doc ∧
    chunk_document (fun u => u) 512 50 c9_doc =
      .error (strChars "text too short") :=
  C9_chunk_document_rejects_short_text (fun u => u)

/-- A successfully validated embedding is exactly the given record, and its
vector length passed the 1024 check. -/
lemma embedding_make_ok {cid : Str} {v : List ℚ} {m ca : Str}
    {cr : Option TextChunk} {emb : Embedding}
    (h : Embedding.make cid v m ca cr = .ok emb) :
    emb = Embedding.mk cid v m ca cr ∧ v.length = 1024 := by
  unfold Embedding.make at h
  split at h
  · cases h
  · next hlen =>
    cases h
    exact ⟨rfl, Classical.not_not.1 hlen⟩

/-- Every embedding built by the JSONL loader has no `chunk_ref`. -/
lemma loadEmbedGo_chunk_ref_none (limit : Option Nat) :
    ∀ (rs : List JsonlRec) (count : Nat) (es : List Embedding),
      loadEmbedGo limit count rs = .ok es → ∀ e ∈ es, e.chunk_ref = none := by
  intro rs
  induction rs with
  | nil =>
    intro count es h e he
    simp only [loadEmbedGo] at h
    cases h; simp at he
  | cons r rest ih =>
    intro count es h e he
    simp only [loadEmbedGo] at h
    split at h
    · cases h; simp at he
    · cases hm : Embedding.make r.chunk_id r.vector r.model r.created_at none with
      | error err => rw [hm] at h; cases h
      | ok emb =>
        rw [hm] at h
        cases hrec : loadEmbedGo limit (count + 1) rest with
        | error err => rw [hrec] at h; cases h
        | ok es2 =>
          rw [hrec] at h
          simp only [Except.map, Except.ok.injEq] at h
          subst h
          rcases List.mem_cons.1 he with he1 | he2
          · subst he1
            rw [(embedding_make_ok hm).1]
          · exact ih (count + 1) es2 hrec e he2

/-- C10: `to_vector_record` fails for every embedding without a `chunk_ref`,
and every embedding rebuilt by `load_embeddings_from_jsonl` has no
`chunk_ref`, so no loaded embedding can be converted to a `VectorRecord`. -/
theorem C10_loaded_embeddings_cannot_upload :
    (∀ e : Embedding, e.chunk_ref = none →
      e.to_vector_record =
        .error (strChars "chunk_ref is required to create VectorRecord")) ∧
    (∀ (limit : Option Nat) (rs : List JsonlRec) (es : List Embedding),
      load_embeddings_from_jsonl limit rs = .ok es →
      ∀ e ∈ es, e.chunk_ref = none ∧
        e.to_vector_record =
          .error (strChars "chunk_ref is required to create VectorRecord")) := by
  have h1 : ∀ e : Embedding, e.chunk_ref = none →
      e.to_vector_record =
        .error (strChars "chunk_ref is required to create VectorRecord") := by
    intro e he
    unfold Embedding.to_vector_record
    rw [he]
  refine ⟨h1, ?_⟩
  intro limit rs es h e he
  have hn := loadEmbedGo_chunk_ref_none limit rs 0 es h e he
  exact ⟨hn, h1 e hn⟩

set_option maxRecDepth 100000 in
/-- C10 (witness): the theorem applied to one concretely loaded record. -/
theorem C10_witness :
    c10_emb.chunk_ref = none ∧
    c10_emb.to_vector_record =
      .error (strChars "chunk_ref is required to create VectorRecord") :=
  C10_loaded_embeddings_cannot_upload.2 none [c10_rec] [c10_emb] (by rfl)
    c10_emb (by simp)

/-- Any sufficient fuel computes the same batches. -/
lemma batchesGo_fuel {α : Type} (n : Nat) (hn : 1 ≤ n) :
    ∀ (f1 f2 : Nat) (l : List α), l.length ≤ f1 → l.length ≤ f2 →
      batchesGo n f1 l = batchesGo n f2 l := by
  intro f1
  induction f1 with
  | zero =>
    intro f2 l h1 _
    have hl : l = [] := by
      cases l with
      | nil => rfl
      | cons a as => simp at h1
    subst hl
    cases f2 <;> rfl
  | succ m ih =>
    intro f2 l h1 h2
    cases l with
    | nil => cases f2 <;> rfl
    | cons x xs =>
      cases f2 with
      | zero => simp at h2
      | succ k =>
        simp only [batchesGo]
        congr 1
        apply ih
        · rw [List.length_drop]
          simp only [List.length_cons] at h1 ⊢
          omega
        · rw [List.length_drop]
          simp only [List.length_cons] at h2 ⊢
          omega

/-- Unfolding equation for `batchesOf` on a non-empty list. -/
lemma batchesOf_cons {α : Type} (n : Nat) (hn : 1 ≤ n) (l : List α)
    (hl : l ≠ []) : batchesOf n l = l.take n :: batchesOf n (l.drop n) := by
  cases l with
  | nil => exact absurd rfl hl
  | cons x xs =>
    show batchesGo n (xs.length + 1) (x :: xs) = _
    simp only [batchesGo]
    congr 1
    unfold batchesOf
    apply batchesGo_fuel n hn
    · rw [List.length_drop]; simp; omega
    · rw [List.length_drop]

/-- C1 (code defect): for an upload of 101 records (batch size 100), the
Qdrant point ids assigned by `_upload_batch` are the within-batch positions
`0..99, 0`, so the id `0` is assigned twice — records in different batches
collide instead of receiving identifiers derived from `chunk_id`. -/
theorem C1_store_ids_collide_across_batches :
    ∀ records : List VectorRecord, records.length = 101 →
      (upload_point_ids records).map Prod.fst = List.range 100 ++ [0] ∧
      ((upload_point_ids records).map Prod.fst).count 0 = 2 := by
  intro records h
  have hne : records ≠ [] := by
    intro he; rw [he] at h; simp at h
  have hd1 : (records.drop 100).length = 1 := by
    rw [List.length_drop, h]
  have hdne : records.drop 100 ≠ [] := by
    intro he; rw [he] at hd1; simp at hd1
  have hdd : (records.drop 100).drop 100 = [] := by
    apply List.drop_eq_nil_of_le
    omega
  have hb : batchesOf 100 records = [records.take 100, records.drop 100] := by
    rw [batchesOf_cons 100 (by omega) records hne]
    congr 1
    rw [batchesOf_cons 100 (by omega) _ hdne, hdd]
    rw [List.take_of_length_le (by omega)]
    rfl
  have hmain : (upload_point_ids records).map Prod.fst =
      List.range 100 ++ [0] := by
    unfold upload_point_ids
    rw [hb]
    simp only [List.map_cons, List.map_nil, List.flatten,
      List.append_nil, List.map_append, List.enum_map_fst]
    rw [List.length_take, h, List.length_drop, h]
    rfl
  exact ⟨hmain, by rw [hmain]; decide⟩

/-- C1 (witness): the collision at a concrete 101-record upload. -/
theorem C1_witness :
    (List.replicate 101 c1_rec).length = 101 ∧
    ((upload_point_ids (List.replicate 101 c1_rec)).map Prod.fst =
        List.range 100 ++ [0] ∧
      ((upload_point_ids (List.replicate 101 c1_rec)).map Prod.fst).count 0 =
        2) :=
  ⟨by rw [List.length_replicate],
    C1_store_ids_collide_across_batches _ (by rw [List.length_replicate])⟩

/-- A successfully validated vector record has a 1024-entry vector. -/
lemma vector_record_make_ok {id : Str} {v : List ℚ} {p : List (Str × PVal)}
    {r : VectorRecord} (h : VectorRecord.make id v p = .ok r) :
    r = VectorRecord.mk id v p ∧ v.length = 1024 := by
  unfold VectorRecord.make at h
  split at h
  · cases h
  · next hlen =>
    split at h
    · cases h
    · cases h
      exact ⟨rfl, Classical.not_not.1 hlen⟩

/-- An error accumulator is preserved by every further batch. -/
lemma foldl_embedStep_error (respond : List Str → List (List ℚ))
    (model created_at e : Str) :
    ∀ batches : List (List TextChunk),
      batches.foldl (embedStep respond model created_at) (.error e) =
        .error e := by
  intro batches
  induction batches with
  | nil => rfl
  | cons b rest ih => simpa [embedStep] using ih

/-- C6: `embedding_dimensions` is 1024; an `Embedding` or `VectorRecord` only
constructs with a vector of exactly that length and any other length is
rejected; and an embedding run whose provider returns a wrong-length vector
for every text fails outright. -/
theorem C6_vector_dimension_enforced :
    embedding_dimensions = 1024 ∧
    (∀ (cid : Str) (v : List ℚ) (m ca : Str) (cr : Option TextChunk)
      (e : Embedding), Embedding.make cid v m ca cr = .ok e →
        e.vector.length = embedding_dimensions) ∧
    (∀ (id : Str) (v : List ℚ) (p : List (Str × PVal)) (r : VectorRecord),
      VectorRecord.make id v p = .ok r →
        r.vector.length = embedding_dimensions) ∧
    (∀ (cid : Str) (v : List ℚ) (m ca : Str) (cr : Option TextChunk),
      v.length ≠ embedding_dimensions →
        Embedding.make cid v m ca cr =
          .error (strChars "Vector must have 1024 dimensions")) ∧
    (∀ (id : Str) (v : List ℚ) (p : List (Str × PVal)),
      v.length ≠ embedding_dimensions →
        VectorRecord.make id v p =
          .error (strChars "Vector must have 1024 dimensions")) ∧
    (∀ (bs : Nat) (respond : List Str → List (List ℚ)) (m ca : Str)
      (chunks : List TextChunk),
      1 ≤ bs → chunks ≠ [] →
      (∀ ts, (respond ts).length = ts.length) →
      (∀ ts vv, vv ∈ respond ts → vv.length ≠ embedding_dimensions) →
      embed_chunks bs respond m ca chunks =
        .error (strChars "Vector must have 1024 dimensions")) := by
  refine ⟨rfl, ?_, ?_, ?_, ?_, ?_⟩
  · intro cid v m ca cr e h
    obtain ⟨he, hlen⟩ := embedding_make_ok h
    rw [he, embedding_dimensions]
    exact hlen
  · intro id v p r h
    obtain ⟨hr, hlen⟩ := vector_record_make_ok h
    rw [hr, embedding_dimensions]
    exact hlen
  · intro cid v m ca cr h
    rw [embedding_dimensions] at h
    unfold Embedding.make
    rw [if_pos h]
  · intro id v p h
    rw [embedding_dimensions] at h
    unfold VectorRecord.make
    rw [if_pos h]
  · intro bs respond m ca chunks hbs hchunks hresp hbad
    cases chunks with
    | nil => exact absurd rfl hchunks
    | cons c cs =>
      cases bs with
      | zero => simp at hbs
      | succ bsm =>
        rw [embed_chunks,
          batchesOf_cons (bsm + 1) (by omega) (c :: cs) (by simp)]
        have htake : (c :: cs).take (bsm + 1) = c :: cs.take bsm := by simp
        rw [htake]
        set texts := ((c :: cs.take bsm).map (·.text)) with htexts
        have hlen : (respond texts).length = texts.length := hresp texts
        cases hv : respond texts with
        | nil =>
          rw [hv] at hlen
          simp [htexts] at hlen
        | cons v0 vrest =>
          have hv0 : v0.length ≠ 1024 := by
            have := hbad texts v0 (by rw [hv]; exact List.mem_cons_self v0 vrest)
            rwa [embedding_dimensions] at this
          simp only [List.foldl_cons]
          have hstep : embedStep respond m ca (.ok []) (c :: cs.take bsm) =
              .error (strChars "Vector must have 1024 dimensions") := by
            simp only [embedStep, ← htexts, hv, List.zip_cons_cons, mapExcept]
            rw [show Embedding.make c.chunk_id v0 m ca (some c) =
              .error (strChars "Vector must have 1024 dimensions") from by
                unfold Embedding.make; rw [if_pos hv0]]
            rfl
          rw [hstep]
          exact foldl_embedStep_error respond m ca _ _

/-- C6 (witness): the run-failure clause at one chunk and a provider that
returns 1023-entry vectors. -/
theorem C6_witness :
    embed_chunks 96 (fun ts => ts.map (fun _ => List.replicate 1023 (0 : ℚ)))
        (strChars "m") (strChars "t") [c6_chunk] =
      .error (strChars "Vector must have 1024 dimensions") :=
  C6_vector_dimension_enforced.2.2.2.2.2 96
    (fun ts => ts.map (fun _ => List.replicate 1023 (0 : ℚ)))
    (strChars "m") (strChars "t") [c6_chunk] (by omega) (by simp)
    (fun ts => by rw [List.length_map])
    (fun ts vv hv => by
      rw [List.mem_map] at hv
      obtain ⟨_, _, hvv⟩ := hv
      rw [← hvv, List.length_replicate, embedding_dimensions]
      omega)

/-- C7 (counterexample): a sitemap index whose two nested-sitemap locations
contain the substring `sitemap.xml` yields no urls at all — the nested
sitemaps are skipped by the `"sitemap.xml" not in loc.text` guard — although
each nested sitemap serves three urls. -/
theorem C7_counterexample :
    fetch_sitemap_urls c7_env (mkSitemapIndex c7_locA c7_locB) = [] ∧
    (fetch_sitemap_urls c7_env (mkSitemapIndex c7_locA c7_locB)).length ≠ 6 := by
  exact ⟨by decide, by decide⟩

/-- The urls collected from a plain `<urlset>` whose entries have non-empty
locations are exactly those locations, unfiltered. -/
lemma nested_urlset (us : List Str) (h : ∀ u ∈ us, u ≠ []) :
    nested_sitemap_urls (mkUrlset us) = us := by
  have hgo : ∀ vs : List Str, (∀ u ∈ vs, u ≠ []) →
      (descendantsList (vs.map mkUrlEl)).filterMap nestedLocOf = vs := by
    intro vs
    induction vs with
    | nil => intro _; rfl
    | cons u rest ih =>
      intro hv
      simp only [List.map_cons, descendantsList]
      rw [List.filterMap_append]
      have h1 : descendantsSelf (mkUrlEl u) =
          [mkUrlEl u, Xml.el (strChars "loc") (some u) []] := rfl
      rw [h1]
      have h2 : nestedLocOf (mkUrlEl u) =
          if u ≠ [] then some u else none := rfl
      have h3 : nestedLocOf (Xml.el (strChars "loc") (some u) []) = none := rfl
      simp only [List.filterMap_cons, h2, h3,
        if_pos (hv u (List.mem_cons_self u rest)), List.filterMap_nil]
      rw [ih (fun x hx => hv x (List.mem_cons_of_mem u hx))]
      rfl
  have hroot : nested_sitemap_urls (mkUrlset us) =
      (descendantsList (us.map mkUrlEl)).filterMap nestedLocOf := by
    unfold nested_sitemap_urls mkUrlset
    simp only [descendantsSelf]
    rw [List.filterMap_cons]
    rfl
  rw [hroot]
  exact hgo us h

/-- C7 (amended): for a sitemap index with two nested-sitemap references
whose locations are non-empty and do not contain the substring
`sitemap.xml`, and whose nested sitemaps carry three non-empty url entries
each, discovery returns all six urls; nested entries bypass the top-level
`/docs/` filter.  (Nested references containing `sitemap.xml` are skipped
entirely, per the counterexample.) -/
theorem C7_nested_sitemap_urls_returned :
    ∀ (l1 l2 : Str) (us vs : List Str) (env : Str → Option Xml),
      l1 ≠ [] → l2 ≠ [] →
      containsStr l1 (strChars "sitemap.xml") = false →
      containsStr l2 (strChars "sitemap.xml") = false →
      (∀ u ∈ us, u ≠ []) → (∀ v ∈ vs, v ≠ []) →
      us.length = 3 → vs.length = 3 →
      env l1 = some (mkUrlset us) → env l2 = some (mkUrlset vs) →
      fetch_sitemap_urls env (mkSitemapIndex l1 l2) = us ++ vs ∧
      (fetch_sitemap_urls env (mkSitemapIndex l1 l2)).length = 6 := by
  intro l1 l2 us vs env h1 h2 hc1 hc2 hu hv hlu hlv he1 he2
  have hred : fetch_sitemap_urls env (mkSitemapIndex l1 l2) =
      ((if l1 ≠ [] ∧ ¬containsStr l1 (strChars "sitemap.xml") = true then
          match env l1 with
          | some t => nested_sitemap_urls t
          | none => []
        else []) ++
        ((if l2 ≠ [] ∧ ¬containsStr l2 (strChars "sitemap.xml") = true then
            match env l2 with
            | some t => nested_sitemap_urls t
            | none => []
          else []) ++ [])) ++ [] := rfl
  have hmain : fetch_sitemap_urls env (mkSitemapIndex l1 l2) = us ++ vs := by
    rw [hred,
      if_pos ⟨h1, by rw [hc1]; exact Bool.false_ne_true⟩,
      if_pos ⟨h2, by rw [hc2]; exact Bool.false_ne_true⟩, he1, he2]
    show nested_sitemap_urls (mkUrlset us) ++
      (nested_sitemap_urls (mkUrlset vs) ++ []) ++ [] = us ++ vs
    rw [nested_urlset us hu, nested_urlset vs hv]
    simp
  refine ⟨hmain, ?_⟩
  rw [hmain, List.length_append, hlu, hlv]

/-- C7 (witness): the amended theorem at concrete locations avoiding the
`sitemap.xml` substring. -/
theorem C7_witness :
    fetch_sitemap_urls c7_env2 (mkSitemapIndex c7_locA2 c7_locB2) =
      c7_usA ++ c7_usB ∧
    (fetch_sitemap_urls c7_env2 (mkSitemapIndex c7_locA2 c7_locB2)).length =
      6 :=
  C7_nested_sitemap_urls_returned c7_locA2 c7_locB2 c7_usA c7_usB c7_env2
    (by decide) (by decide) (by decide) (by decide) (by decide) (by decide)
    (by decide) (by decide) rfl rfl

/-- With no two consecutive newlines, the paragraph splitter accumulates the
whole input into a single segment. -/
lemma splitParasAux_single :
    ∀ (s segRev : Str) (nl : Nat),
      List.Chain' (fun a b => ¬(a = '\n' ∧ b = '\n')) s →
      nl ≤ 1 → (nl = 1 → s.head? ≠ some '\n') →
      splitParasAux s segRev nl =
        [segRev.reverse ++ List.replicate nl '\n' ++ s] := by
  intro s
  induction s with
  | nil =>
    intro segRev nl _ hnl _
    match nl, hnl with
    | 0, _ => simp [splitParasAux]
    | 1, _ => simp [splitParasAux]
  | cons c rest ih =>
    intro segRev nl hch hnl hhd
    by_cases hc : c = '\n'
    · subst hc
      have hnl0 : nl = 0 := by
        by_contra h0
        have h1 : nl = 1 := by omega
        exact hhd h1 rfl
      subst hnl0
      simp only [splitParasAux, if_pos rfl]
      rw [ih segRev 1 ((List.chain'_cons'.1 hch).2) (by omega) ?_]
      · simp
      · intro _ hhd2
        cases hr : rest with
        | nil => rw [hr] at hhd2; simp at hhd2
        | cons d ds =>
          rw [hr] at hhd2
          simp only [List.head?, Option.some.injEq] at hhd2
          have := (List.chain'_cons'.1 hch).1 d (by rw [hr]; rfl)
          exact this ⟨rfl, hhd2⟩
    · have h2nl : ¬ 2 ≤ nl := by omega
      simp only [splitParasAux, if_neg hc, if_neg h2nl]
      rw [ih _ 0 ((List.chain'_cons'.1 hch).2) (by omega) (by simp)]
      simp [List.append_assoc]

/-- `re.split(r'\n\n+', s) = [s]` when `s` has no two adjacent newlines. -/
lemma splitParas_single (s : Str)
    (h : List.Chain' (fun a b => ¬(a = '\n' ∧ b = '\n')) s) :
    splitParas s = [s] := by
  unfold splitParas
  rw [splitParasAux_single s [] 0 h (by omega) (by simp)]
  simp

/-- With no sentence terminator anywhere, the sentence splitter accumulates
the whole input into a single segment. -/
lemma sentGo_no_term :
    ∀ (s segRev : Str),
      (∀ c ∈ segRev, isTermChar c = false) →
      (∀ c ∈ s, isTermChar c = false) →
      sentGo s segRev = [segRev.reverse ++ s] := by
  intro s
  induction s with
  | nil => intro segRev _ _; simp [sentGo]
  | cons c rest ih =>
    intro segRev hseg hs
    have htail : ∀ x ∈ rest, isTermChar x = false :=
      fun x hx => hs x (List.mem_cons_of_mem c hx)
    have hcons : ∀ x ∈ c :: segRev, isTermChar x = false := by
      intro x hx
      rcases List.mem_cons.1 hx with hx1 | hx2
      · subst hx1; exact hs x (List.mem_cons_self x rest)
      · exact hseg x hx2
    cases segRev with
    | nil =>
      simp only [sentGo, Bool.and_false, Bool.false_eq_true, if_false]
      rw [ih [c] hcons htail]
      simp
    | cons t ts =>
      have ht : isTermChar t = false := hseg t (List.mem_cons_self t ts)
      simp only [sentGo, ht, Bool.and_false, Bool.false_eq_true, if_false]
      rw [ih (c :: t :: ts) hcons htail]
      simp

/-- `re.split(r'(?<=[.!?])\s+', s) = [s]` when `s` has no terminator. -/
lemma splitSents_no_term (s : Str) (h : ∀ c ∈ s, isTermChar c = false) :
    splitSents s = [s] := by
  unfold splitSents
  rw [sentGo_no_term s [] (by simp) h]
  simp

/-- C2 (counterexample): with `chunk_size = 2` and `overlap = 1`, a stripped
single-paragraph terminator-free text of exactly `2 * chunk_size * 4 = 16`
characters is split into one chunk, not the two overlapping chunks the claim
describes. -/
theorem C2_counterexample :
    (split_text 2 1 (List.replicate 16 'a')).length = 1 ∧
    (split_text 2 1 (List.replicate 16 'a')).length ≠ 2 := by
  exact ⟨by decide, by decide⟩

/-- C2 (amended): for every configuration and every stripped single-paragraph
text of exactly `2 * chunk_size * 4` characters with no sentence terminators,
the paragraph exceeds `1.5 * chunk_size` tokens, its single sentence is never
split, and the chunker emits exactly one chunk — the whole text — with no
overlap produced. -/
theorem C2_single_oversized_sentence_one_chunk :
    ∀ (cs ov : Nat) (text : Str),
      1 ≤ cs → text.length = 2 * cs * 4 →
      List.Chain' (fun a b => ¬(a = '\n' ∧ b = '\n')) text →
      (∀ c ∈ text, isTermChar c = false) →
      stripStr text = text →
      split_text cs ov text = [text] ∧
        (split_text cs ov text).length ≠ 2 := by
  intro cs ov text hcs hlen hch hterm hstrip
  have hne : text ≠ [] := by
    intro he
    rw [he] at hlen
    simp at hlen
    omega
  have hct : count_tokens text = 2 * cs := by
    rw [count_tokens, hlen]
    omega
  have hbig : 3 * cs < 2 * count_tokens text := by
    rw [hct]; omega
  have hadd : addUnit cs ov [' '] (SplitSt.mk [] [] 0) text =
      SplitSt.mk [] text (0 + count_tokens text) := by
    simp only [addUnit]
    rw [if_pos (show cs < 0 + count_tokens text by rw [hct]; omega)]
    simp
  have hproc : procPara cs ov (SplitSt.mk [] [] 0) text =
      SplitSt.mk [] text (0 + count_tokens text) := by
    unfold procPara
    rw [hstrip]
    rw [if_neg hne, if_pos hbig, splitSents_no_term text hterm]
    simp only [List.foldl_cons, List.foldl_nil]
    rw [hstrip, if_neg hne, hadd]
  have hsplit : split_text cs ov text = [text] := by
    unfold split_text
    rw [splitParas_single text hch]
    simp only [List.foldl_cons, List.foldl_nil]
    rw [hproc]
    simp [hne, hstrip]
  exact ⟨hsplit, by rw [hsplit]; simp⟩

/-- A constant list is a chain for any reflexive-at-the-element relation. -/
lemma chain'_replicate_self {R : Char → Char → Prop} (c : Char) (h : R c c) :
    ∀ n, List.Chain' R (List.replicate n c) := by
  intro n
  induction n with
  | zero => simp
  | succ m ih =>
    rw [List.replicate_succ, List.chain'_cons']
    refine ⟨?_, ih⟩
    intro y hy
    cases m with
    | zero => simp at hy
    | succ k =>
      rw [List.replicate_succ] at hy
      simp only [List.head?, Option.mem_def, Option.some.injEq] at hy
      subst hy
      exact h

/-- C2 (witness): the amended theorem at `chunk_size = 2`, `overlap = 1` and
sixteen characters. -/
theorem C2_witness :
    split_text 2 1 (List.replicate 16 'a') = [List.replicate 16 'a'] ∧
    (split_text 2 1 (List.replicate 16 'a')).length ≠ 2 :=
  C2_single_oversized_sentence_one_chunk 2 1 (List.replicate 16 'a')
    (by omega) (by rw [List.length_replicate])
    (chain'_replicate_self 'a' (by decide) 16)
    (fun c hc => by rw [List.eq_of_mem_replicate hc]; decide)
    (by decide)

/-- A space-or-tab character is Python whitespace. -/
lemma isST_isPyWs {c : Char} (h : isST c = true) : isPyWs c = true := by
  simp only [isST, Bool.or_eq_true, decide_eq_true_eq] at h
  rcases h with h | h <;> subst h <;> decide

/-- `delNlST false` does not change the first character. -/
lemma head?_delNlST_false (s : Str) : (delNlST false s).head? = s.head? := by
  cases s with
  | nil => rfl
  | cons c rest =>
    simp only [delNlST, Bool.false_and, Bool.false_eq_true, if_false]
    by_cases hc : c = '\n'
    · subst hc; simp
    · rw [if_neg hc]; rfl

/-- `collapseNl 0` does not change the first character. -/
lemma head?_collapseNl_zero (s : Str) : (collapseNl 0 s).head? = s.head? := by
  cases s with
  | nil => rfl
  | cons c rest =>
    by_cases hc : c = '\n'
    · subst hc
      simp [collapseNl]
    · simp [collapseNl, hc]

/-- The space/tab collapser emits no tab. -/
lemma collapseST_no_tab :
    ∀ (b : Bool) (s : Str) (c : Char), c ∈ collapseST b s → c ≠ '\t' := by
  intro b s
  induction s generalizing b with
  | nil => intro c hc; simp [collapseST] at hc
  | cons c0 rest ih =>
    intro c hc
    simp only [collapseST] at hc
    by_cases h0 : isST c0 = true
    · rw [if_pos h0] at hc
      cases b with
      | true => exact ih true c (by simpa using hc)
      | false =>
        simp only [Bool.false_eq_true, if_false, List.mem_cons] at hc
        rcases hc with hc | hc
        · subst hc; decide
        · exact ih true c hc
    · rw [if_neg h0] at hc
      rcases List.mem_cons.1 hc with hc | hc
      · subst hc
        intro he
        subst he
        simp [isST] at h0
      · exact ih false c hc

/-- After a run has been entered, the collapser's next output character is
not a space or tab. -/
lemma collapseST_head_not_st :
    ∀ (s : Str) (y : Char), (collapseST true s).head? = some y →
      isST y = false := by
  intro s
  induction s with
  | nil => intro y hy; simp [collapseST] at hy
  | cons c0 rest ih =>
    intro y hy
    by_cases h0 : isST c0 = true
    · rw [show collapseST true (c0 :: rest) = collapseST true rest from by
        simp [collapseST, h0]] at hy
      exact ih y hy
    · rw [show collapseST true (c0 :: rest) = c0 :: collapseST false rest from by
        simp [collapseST, h0]] at hy
      simp only [List.head?, Option.some.injEq] at hy
      subst hy
      simpa using h0

/-- The collapser's output never has two adjacent space/tab characters. -/
lemma collapseST_chain : ∀ (b : Bool) (s : Str),
    List.Chain' R1 (collapseST b s) := by
  intro b s
  induction s generalizing b with
  | nil => simp [collapseST]
  | cons c0 rest ih =>
    by_cases h0 : isST c0 = true
    · cases b with
      | true =>
        rw [show collapseST true (c0 :: rest) = collapseST true rest from by
          simp [collapseST, h0]]
        exact ih true
      | false =>
        rw [show collapseST false (c0 :: rest) = ' ' :: collapseST true rest
          from by simp [collapseST, h0]]
        rw [List.chain'_cons']
        refine ⟨?_, ih true⟩
        intro y hy
        have := collapseST_head_not_st rest y hy
        exact fun hand => by rw [this] at hand; exact Bool.false_ne_true hand.2
    · rw [show collapseST b (c0 :: rest) = c0 :: collapseST false rest from by
        simp [collapseST, h0]]
      rw [List.chain'_cons']
      refine ⟨?_, ih false⟩
      intro y _
      exact fun hand => h0 hand.1

/-- Characters emitted by the newline-run cleaner come from its input. -/
lemma delNlST_mem : ∀ (b : Bool) (s : Str) (c : Char),
    c ∈ delNlST b s → c ∈ s := by
  intro b s
  induction s generalizing b with
  | nil => intro c hc; simp [delNlST] at hc
  | cons c0 rest ih =>
    intro c hc
    simp only [delNlST] at hc
    by_cases hb : (b && isST c0) = true
    · rw [if_pos hb] at hc
      exact List.mem_cons_of_mem c0 (ih true c hc)
    · rw [if_neg hb] at hc
      by_cases h0 : c0 = '\n'
      · rw [if_pos h0] at hc
        rcases List.mem_cons.1 hc with hc | hc
        · subst hc; rw [h0]; exact List.mem_cons_self _ _
        · exact List.mem_cons_of_mem c0 (ih true c hc)
      · rw [if_neg h0] at hc
        rcases List.mem_cons.1 hc with hc | hc
        · subst hc; exact List.mem_cons_self _ _
        · exact List.mem_cons_of_mem c0 (ih false c hc)

/-- The newline-run cleaner preserves the no-adjacent-space/tab invariant. -/
lemma delNlST_chain_R1 : ∀ (b : Bool) (s : Str),
    List.Chain' R1 s → List.Chain' R1 (delNlST b s) := by
  intro b s
  induction s generalizing b with
  | nil => intro _; simp [delNlST]
  | cons c0 rest ih =>
    intro hch
    have htail : List.Chain' R1 rest := (List.chain'_cons'.1 hch).2
    simp only [delNlST]
    by_cases hb : (b && isST c0) = true
    · rw [if_pos hb]
      exact ih true htail
    · rw [if_neg hb]
      by_cases h0 : c0 = '\n'
      · rw [if_pos h0]
        rw [List.chain'_cons']
        refine ⟨?_, ih true htail⟩
        intro y _
        exact fun hand => by simp [isST] at hand
      · rw [if_neg h0]
        rw [List.chain'_cons']
        refine ⟨?_, ih false htail⟩
        intro y hy
        rw [head?_delNlST_false rest] at hy
        exact (List.chain'_cons'.1 hch).1 y hy

/-- Characters emitted in the newline collapser come from its input. -/
lemma collapseNl_mem : ∀ (k : Nat) (s : Str) (c : Char),
    c ∈ collapseNl k s → c ∈ s := by
  intro k s
  induction s generalizing k with
  | nil => intro c hc; simp [collapseNl] at hc
  | cons c0 rest ih =>
    intro c hc
    simp only [collapseNl] at hc
    by_cases h0 : c0 = '\n'
    · rw [if_pos h0] at hc
      by_cases hk : 2 ≤ k
      · rw [if_pos hk] at hc
        exact List.mem_cons_of_mem c0 (ih k c hc)
      · rw [if_neg hk] at hc
        rcases List.mem_cons.1 hc with hc | hc
        · subst hc; rw [h0]; exact List.mem_cons_self _ _
        · exact List.mem_cons_of_mem c0 (ih (k + 1) c hc)
    · rw [if_neg h0] at hc
      rcases List.mem_cons.1 hc with hc | hc
      · subst hc; exact List.mem_cons_self _ _
      · exact List.mem_cons_of_mem c0 (ih 0 c hc)

/-- The newline collapser preserves the no-adjacent-space/tab invariant. -/
lemma collapseNl_chain_R1 : ∀ (k : Nat) (s : Str),
    List.Chain' R1 s → List.Chain' R1 (collapseNl k s) := by
  intro k s
  induction s generalizing k with
  | nil => intro _; simp [collapseNl]
  | cons c0 rest ih =>
    intro hch
    have htail : List.Chain' R1 rest := (List.chain'_cons'.1 hch).2
    simp only [collapseNl]
    by_cases h0 : c0 = '\n'
    · rw [if_pos h0]
      by_cases hk : 2 ≤ k
      · rw [if_pos hk]
        exact ih k htail
      · rw [if_neg hk]
        rw [List.chain'_cons']
        refine ⟨?_, ih (k + 1) htail⟩
        intro y _
        exact fun hand => by simp [isST] at hand
    · rw [if_neg h0]
      rw [List.chain'_cons']
      refine ⟨?_, ih 0 htail⟩
      intro y hy
      rw [head?_collapseNl_zero rest] at hy
      exact (List.chain'_cons'.1 hch).1 y hy

/-- Splitting on newlines never yields an empty list of lines. -/
lemma splitNl_ne_nil (s : Str) : splitNl s ≠ [] := by
  induction s with
  | nil => simp [splitNl]
  | cons c rest ih =>
    by_cases hc : c = '\n'
    · simp [splitNl, hc]
    · simp only [splitNl, if_neg hc]
      cases h : splitNl rest with
      | nil => exact absurd h ih
      | cons a t => simp

/-- Characters of each line come from the split string. -/
lemma splitNl_mem_chars :
    ∀ (s : Str) (l : Str), l ∈ splitNl s → ∀ c ∈ l, c ∈ s := by
  intro s
  induction s with
  | nil =>
    intro l hl c hc
    simp [splitNl] at hl
    subst hl
    simp at hc
  | cons c0 rest ih =>
    intro l hl c hc
    by_cases h0 : c0 = '\n'
    · rw [show splitNl (c0 :: rest) = [] :: splitNl rest from by
        simp [splitNl, h0]] at hl
      rcases List.mem_cons.1 hl with hl | hl
      · subst hl; simp at hc
      · exact List.mem_cons_of_mem c0 (ih l hl c hc)
    · rw [show splitNl (c0 :: rest) = (splitNl rest).modifyHead (c0 :: ·)
        from by simp [splitNl, h0]] at hl
      cases hsp : splitNl rest with
      | nil => exact absurd hsp (splitNl_ne_nil rest)
      | cons h0l t =>
        rw [hsp] at hl
        simp only [List.modifyHead] at hl
        rcases List.mem_cons.1 hl with hl | hl
        · subst hl
          rcases List.mem_cons.1 hc with hc | hc
          · subst hc; exact List.mem_cons_self _ _
          · exact List.mem_cons_of_mem c0
              (ih h0l (by rw [hsp]; exact List.mem_cons_self _ _) c hc)
        · exact List.mem_cons_of_mem c0
            (ih l (by rw [hsp]; exact List.mem_cons_of_mem h0l hl) c hc)

/-- No line produced by the newline split contains a newline. -/
lemma splitNl_no_nl : ∀ (s : Str) (l : Str), l ∈ splitNl s → '\n' ∉ l := by
  intro s
  induction s with
  | nil =>
    intro l hl
    simp [splitNl] at hl
    subst hl
    simp
  | cons c0 rest ih =>
    intro l hl
    by_cases h0 : c0 = '\n'
    · rw [show splitNl (c0 :: rest) = [] :: splitNl rest from by
        simp [splitNl, h0]] at hl
      rcases List.mem_cons.1 hl with hl | hl
      · subst hl; simp
      · exact ih l hl
    · rw [show splitNl (c0 :: rest) = (splitNl rest).modifyHead (c0 :: ·)
        from by simp [splitNl, h0]] at hl
      cases hsp : splitNl rest with
      | nil => exact absurd hsp (splitNl_ne_nil rest)
      | cons h0l t =>
        rw [hsp] at hl
        simp only [List.modifyHead] at hl
        rcases List.mem_cons.1 hl with hl | hl
        · subst hl
          intro hmem
          rcases List.mem_cons.1 hmem with hmem | hmem
          · exact h0 hmem.symm
          · exact ih h0l (by rw [hsp]; exact List.mem_cons_self _ _) hmem
        · exact ih l (by rw [hsp]; exact List.mem_cons_of_mem h0l hl)

/-- If the first line starts with `y`, so does the split string. -/
lemma splitNl_head_head (s : Str) (h0l : Str) (t : List Str)
    (hsp : splitNl s = h0l :: t) (y : Char) (hy : h0l.head? = some y) :
    s.head? = some y := by
  cases s with
  | nil =>
    simp [splitNl] at hsp
    rw [hsp.1] at hy
    simp at hy
  | cons c0 rest =>
    by_cases h0 : c0 = '\n'
    · rw [show splitNl (c0 :: rest) = [] :: splitNl rest from by
        simp [splitNl, h0]] at hsp
      cases hsp
      simp at hy
    · rw [show splitNl (c0 :: rest) = (splitNl rest).modifyHead (c0 :: ·)
        from by simp [splitNl, h0]] at hsp
      cases hs2 : splitNl rest with
      | nil => exact absurd hs2 (splitNl_ne_nil rest)
      | cons a t2 =>
        rw [hs2] at hsp
        simp only [List.modifyHead] at hsp
        cases hsp
        simp only [List.head?, Option.some.injEq] at hy
        rw [hy]
        rfl

/-- Each line of an R1-chained string is R1-chained. -/
lemma splitNl_chain_R1 :
    ∀ s : Str, List.Chain' R1 s → ∀ l ∈ splitNl s, List.Chain' R1 l := by
  intro s
  induction s with
  | nil =>
    intro _ l hl
    simp [splitNl] at hl
    subst hl
    simp
  | cons c0 rest ih =>
    intro hch l hl
    have htail : List.Chain' R1 rest := (List.chain'_cons'.1 hch).2
    by_cases h0 : c0 = '\n'
    · rw [show splitNl (c0 :: rest) = [] :: splitNl rest from by
        simp [splitNl, h0]] at hl
      rcases List.mem_cons.1 hl with hl | hl
      · subst hl; simp
      · exact ih htail l hl
    · rw [show splitNl (c0 :: rest) = (splitNl rest).modifyHead (c0 :: ·)
        from by simp [splitNl, h0]] at hl
      cases hsp : splitNl rest with
      | nil => exact absurd hsp (splitNl_ne_nil rest)
      | cons h0l t =>
        rw [hsp] at hl
        simp only [List.modifyHead] at hl
        rcases List.mem_cons.1 hl with hl | hl
        · subst hl
          rw [List.chain'_cons']
          refine ⟨?_, ih htail h0l (by rw [hsp]; exact List.mem_cons_self _ _)⟩
          intro y hy
          exact (List.chain'_cons'.1 hch).1 y
            (splitNl_head_head rest h0l t hsp y hy)
        · exact ih htail l (by rw [hsp]; exact List.mem_cons_of_mem h0l hl)

/-- `strip` gives a contiguous substring. -/
lemma stripStr_infixOf (l : Str) : stripStr l <:+: l := by
  unfold stripStr
  have h1 := List.rdropWhile_prefix isPyWs (l.dropWhile isPyWs)
  have h2 := List.dropWhile_suffix (l := l) isPyWs
  exact h1.isInfix.trans h2.isInfix

/-- Characters of a stripped string come from the original. -/
lemma mem_stripStr (l : Str) (c : Char) (hc : c ∈ stripStr l) : c ∈ l :=
  (stripStr_infixOf l).sublist.subset hc

/-- Stripping preserves the no-adjacent-space/tab invariant. -/
lemma stripStr_chain_R1 (l : Str) (h : List.Chain' R1 l) :
    List.Chain' R1 (stripStr l) :=
  h.infix (stripStr_infixOf l)

/-- The first character surviving `dropWhile` fails the predicate. -/
lemma dropWhile_head_not (p : Char → Bool) :
    ∀ (l : Str) (y : Char), (l.dropWhile p).head? = some y → p y = false := by
  intro l
  induction l with
  | nil => intro y hy; simp at hy
  | cons c rest ih =>
    intro y hy
    by_cases hc : p c = true
    · rw [List.dropWhile_cons_of_pos hc] at hy
      exact ih y hy
    · rw [List.dropWhile_cons_of_neg hc] at hy
      simp only [List.head?, Option.some.injEq] at hy
      subst hy
      simpa using hc

/-- The first character of a stripped string is not whitespace. -/
lemma stripStr_head_not (l : Str) (y : Char)
    (hy : (stripStr l).head? = some y) : isPyWs y = false := by
  have hpre := List.rdropWhile_prefix isPyWs (l.dropWhile isPyWs)
  obtain ⟨t, ht⟩ := hpre
  apply dropWhile_head_not isPyWs l y
  rw [← ht]
  cases hs : stripStr l with
  | nil => rw [hs] at hy; simp at hy
  | cons a t2 =>
    rw [hs] at hy
    simp only [List.head?, Option.some.injEq] at hy
    subst hy
    unfold stripStr at hs
    rw [hs]
    rfl

/-- The last character of a stripped string is not whitespace. -/
lemma stripStr_getLast_not (l : Str) (y : Char)
    (hy : (stripStr l).getLast? = some y) : isPyWs y = false := by
  have hne : stripStr l ≠ [] := by
    intro he; rw [he] at hy; simp at hy
  unfold stripStr at hy hne
  have := List.rdropWhile_last_not isPyWs (l.dropWhile isPyWs) hne
  rw [List.getLast?_eq_getLast_of_ne_nil hne] at hy
  simp only [Option.some.injEq] at hy
  subst hy
  simpa using this

/-- Stripping an already stripped string changes nothing. -/
lemma stripStr_idem (l : Str) : stripStr (stripStr l) = stripStr l := by
  have h1 : (stripStr l).dropWhile isPyWs = stripStr l := by
    cases hs : stripStr l with
    | nil => rfl
    | cons c rest =>
      have hc : isPyWs c = false := by
        apply stripStr_head_not l
        rw [hs]
        rfl
      rw [List.dropWhile_cons_of_neg (by simp [hc])]
  show ((stripStr l).dropWhile isPyWs).rdropWhile isPyWs = stripStr l
  rw [h1]
  show (((l.dropWhile isPyWs).rdropWhile isPyWs)).rdropWhile isPyWs = _
  rw [List.rdropWhile_idempotent]
  rfl

/-- A string whose ends are not whitespace is unchanged by `strip`. -/
lemma stripStr_eq_self_of (l : Str)
    (hh : ∀ y, l.head? = some y → isPyWs y = false)
    (hl : ∀ y, l.getLast? = some y → isPyWs y = false) :
    stripStr l = l := by
  have h1 : l.dropWhile isPyWs = l := by
    cases hs : l with
    | nil => rfl
    | cons c rest =>
      have hc : isPyWs c = false := hh c (by rw [hs]; rfl)
      rw [List.dropWhile_cons_of_neg (by simp [hc])]
  show (l.dropWhile isPyWs).rdropWhile isPyWs = l
  rw [h1, List.rdropWhile_eq_self_iff]
  intro hne
  have := hl (l.getLast hne) (List.getLast?_eq_getLast_of_ne_nil hne)
  simp [this]

/-- Unfolding of the newline join on a list with at least two lines. -/
lemma joinNl_cons (l : Str) (L : List Str) (h : L ≠ []) :
    joinNl (l :: L) = l ++ '\n' :: joinNl L := by
  cases L with
  | nil => exact absurd rfl h
  | cons l2 t => rfl

/-- The join of lines starting with a non-empty line keeps its head. -/
lemma joinNl_head (l0 : Str) (L : List Str) (h : l0 ≠ []) :
    (joinNl (l0 :: L)).head? = l0.head? := by
  cases L with
  | nil => rfl
  | cons l2 t =>
    rw [joinNl_cons l0 (l2 :: t) (by simp)]
    cases l0 with
    | nil => exact absurd rfl h
    | cons c r => rfl

/-- The join of a non-empty list of non-empty lines is non-empty. -/
lemma joinNl_ne_nil (l0 : Str) (L : List Str) (h : l0 ≠ []) :
    joinNl (l0 :: L) ≠ [] := by
  intro he
  have := joinNl_head l0 L h
  rw [he] at this
  cases l0 with
  | nil => exact h rfl
  | cons c r => simp at this

/-- The head of a join of non-empty lines is the head of some line. -/
lemma joinNl_head_mem (L : List Str) (hne : ∀ l ∈ L, l ≠ []) (y : Char)
    (hy : (joinNl L).head? = some y) : ∃ l ∈ L, l.head? = some y := by
  cases L with
  | nil => simp [joinNl] at hy
  | cons l0 t =>
    rw [joinNl_head l0 t (hne l0 (List.mem_cons_self l0 t))] at hy
    exact ⟨l0, List.mem_cons_self l0 t, hy⟩

/-- The last character of a join of non-empty lines is the last character of
some line. -/
lemma joinNl_getLast_mem :
    ∀ (L : List Str), (∀ l ∈ L, l ≠ []) → ∀ y : Char,
      (joinNl L).getLast? = some y → ∃ l ∈ L, l.getLast? = some y := by
  intro L
  induction L with
  | nil => intro _ y hy; simp [joinNl] at hy
  | cons l0 t ih =>
    intro hne y hy
    cases t with
    | nil => exact ⟨l0, List.mem_cons_self l0 [], hy⟩
    | cons l2 t2 =>
      rw [joinNl_cons l0 (l2 :: t2) (by simp)] at hy
      rw [List.getLast?_append_of_ne_nil l0 (by simp)] at hy
      have hj : joinNl (l2 :: t2) ≠ [] :=
        joinNl_ne_nil l2 t2 (hne l2 (by simp))
      rw [show ('\n' :: joinNl (l2 :: t2)) = ['\n'] ++ joinNl (l2 :: t2)
        from rfl] at hy
      rw [List.getLast?_append_of_ne_nil ['\n'] hj] at hy
      obtain ⟨l, hl, hly⟩ := ih (fun x hx => hne x (List.mem_cons_of_mem l0 hx)) y hy
      exact ⟨l, List.mem_cons_of_mem l0 hl, hly⟩

/-- Characters of a join are newlines or characters of some line. -/
lemma mem_joinNl :
    ∀ (L : List Str) (c : Char), c ∈ joinNl L →
      c = '\n' ∨ ∃ l ∈ L, c ∈ l := by
  intro L
  induction L with
  | nil => intro c hc; simp [joinNl] at hc
  | cons l0 t ih =>
    intro c hc
    cases t with
    | nil => exact Or.inr ⟨l0, List.mem_cons_self l0 [], hc⟩
    | cons l2 t2 =>
      rw [joinNl_cons l0 (l2 :: t2) (by simp)] at hc
      rcases List.mem_append.1 hc with hc | hc
      · exact Or.inr ⟨l0, List.mem_cons_self _ _, hc⟩
      · rcases List.mem_cons.1 hc with hc | hc
        · exact Or.inl hc
        · rcases ih c hc with h | ⟨l, hl, hcl⟩
          · exact Or.inl h
          · exact Or.inr ⟨l, List.mem_cons_of_mem l0 hl, hcl⟩

/-- A chain invariant transfers from the lines to their newline join,
provided it holds across every line boundary. -/
lemma chain'_joinNl (R : Char → Char → Prop) :
    ∀ (L : List Str), (∀ l ∈ L, l ≠ []) → (∀ l ∈ L, List.Chain' R l) →
      (∀ l ∈ L, ∀ a, l.getLast? = some a → R a '\n') →
      (∀ l ∈ L, ∀ b, l.head? = some b → R '\n' b) →
      List.Chain' R (joinNl L) := by
  intro L
  induction L with
  | nil => intro _ _ _ _; simp [joinNl]
  | cons l0 t ih =>
    intro hne hc hlast hhead
    cases t with
    | nil => exact hc l0 (List.mem_cons_self l0 [])
    | cons l2 t2 =>
      rw [joinNl_cons l0 (l2 :: t2) (by simp)]
      rw [List.chain'_append]
      refine ⟨hc l0 (List.mem_cons_self _ _), ?_, ?_⟩
      · rw [List.chain'_cons']
        constructor
        · intro y hy
          rw [Option.mem_def,
            joinNl_head l2 t2 (hne l2 (by simp))] at hy
          exact hhead l2 (by simp) y hy
        · exact ih (fun x hx => hne x (List.mem_cons_of_mem l0 hx))
            (fun x hx => hc x (List.mem_cons_of_mem l0 hx))
            (fun x hx => hlast x (List.mem_cons_of_mem l0 hx))
            (fun x hx => hhead x (List.mem_cons_of_mem l0 hx))
      · intro x hx y hy
        simp only [List.head?, Option.mem_def, Option.some.injEq] at hy
        subst hy
        exact hlast l0 (List.mem_cons_self _ _) x hx

/-- Splitting after appending a newline peels off the newline-free line. -/
lemma splitNl_append_nl :
    ∀ (l rest : Str), '\n' ∉ l →
      splitNl (l ++ '\n' :: rest) = l :: splitNl rest := by
  intro l
  induction l with
  | nil =>
    intro rest _
    simp [splitNl]
  | cons c l0 ih =>
    intro rest h
    have hc : c ≠ '\n' := fun he => h (he ▸ List.mem_cons_self c l0)
    rw [List.cons_append]
    rw [show splitNl (c :: (l0 ++ '\n' :: rest)) =
      (splitNl (l0 ++ '\n' :: rest)).modifyHead (c :: ·) from by
        simp [splitNl, hc]]
    rw [ih rest (fun hm => h (List.mem_cons_of_mem c hm))]
    rfl

/-- A newline-free string splits into itself. -/
lemma splitNl_no_nl_id : ∀ l : Str, '\n' ∉ l → splitNl l = [l] := by
  intro l
  induction l with
  | nil => intro _; rfl
  | cons c l0 ih =>
    intro h
    have hc : c ≠ '\n' := fun he => h (he ▸ List.mem_cons_self c l0)
    rw [show splitNl (c :: l0) = (splitNl l0).modifyHead (c :: ·) from by
      simp [splitNl, hc]]
    rw [ih (fun hm => h (List.mem_cons_of_mem c hm))]
    rfl

/-- Splitting the join of newline-free lines recovers the lines. -/
lemma splitNl_joinNl :
    ∀ L : List Str, (∀ l ∈ L, '\n' ∉ l) → L ≠ [] →
      splitNl (joinNl L) = L := by
  intro L
  induction L with
  | nil => intro _ h; exact absurd rfl h
  | cons l0 t ih =>
    intro hnl _
    cases t with
    | nil => exact splitNl_no_nl_id l0 (hnl l0 (List.mem_cons_self l0 []))
    | cons l2 t2 =>
      rw [joinNl_cons l0 (l2 :: t2) (by simp)]
      rw [splitNl_append_nl l0 (joinNl (l2 :: t2))
        (hnl l0 (List.mem_cons_self _ _))]
      rw [ih (fun x hx => hnl x (List.mem_cons_of_mem l0 hx)) (by simp)]

/-- The space/tab collapser is the identity on tab-free strings with no
adjacent space/tab pair. -/
lemma collapseST_id :
    ∀ (s : Str) (b : Bool), (∀ c ∈ s, c ≠ '\t') → List.Chain' R1 s →
      (b = true → ∀ y, s.head? = some y → isST y = false) →
      collapseST b s = s := by
  intro s
  induction s with
  | nil => intro b _ _ _; cases b <;> rfl
  | cons c0 rest ih =>
    intro b hnt hch hb
    by_cases h0 : isST c0 = true
    · have hb0 : b = false := by
        cases b with
        | false => rfl
        | true =>
          have hf := hb rfl c0 rfl
          rw [h0] at hf
          exact absurd hf (by simp)
      subst hb0
      have hsp : c0 = ' ' := by
        simp only [isST, Bool.or_eq_true, decide_eq_true_eq] at h0
        rcases h0 with h | h
        · exact h
        · exact absurd h (hnt c0 (List.mem_cons_self _ _))
      rw [show collapseST false (c0 :: rest) = ' ' :: collapseST true rest
        from by simp [collapseST, h0]]
      rw [hsp]
      congr 1
      apply ih true (fun c hc => hnt c (List.mem_cons_of_mem c0 hc))
        (List.chain'_cons'.1 hch).2
      intro _ y hy
      have hr := (List.chain'_cons'.1 hch).1 y hy
      unfold R1 at hr
      by_contra hy2
      exact hr ⟨h0, by simpa using hy2⟩
    · rw [show collapseST b (c0 :: rest) = c0 :: collapseST false rest from by
        simp [collapseST, h0]]
      congr 1
      exact ih false (fun c hc => hnt c (List.mem_cons_of_mem c0 hc))
        (List.chain'_cons'.1 hch).2 (by simp)

/-- The newline-run cleaner is the identity when no newline is followed by a
space or tab. -/
lemma delNlST_id :
    ∀ (s : Str) (b : Bool), List.Chain' R2 s →
      (b = true → ∀ y, s.head? = some y → isST y = false) →
      delNlST b s = s := by
  intro s
  induction s with
  | nil => intro b _ _; cases b <;> rfl
  | cons c0 rest ih =>
    intro b hch hb
    have hbc : (b && isST c0) = false := by
      cases b with
      | false => rfl
      | true => rw [hb rfl c0 rfl]; rfl
    by_cases h0 : c0 = '\n'
    · rw [show delNlST b (c0 :: rest) = '\n' :: delNlST true rest from by
        simp [delNlST, hbc, h0, show isST '\n' = false from rfl]]
      rw [h0]
      congr 1
      apply ih true (List.chain'_cons'.1 hch).2
      intro _ y hy
      have hr := (List.chain'_cons'.1 hch).1 y hy
      unfold R2 at hr
      exact hr h0
    · rw [show delNlST b (c0 :: rest) = c0 :: delNlST false rest from by
        simp [delNlST, hbc, h0]]
      congr 1
      exact ih false (List.chain'_cons'.1 hch).2 (by simp)

/-- The newline collapser is the identity on strings with no two adjacent
newlines (starting below the collapse threshold). -/
lemma collapseNl_id :
    ∀ (s : Str) (k : Nat), List.Chain' R3 s →
      (∀ y, s.head? = some y → y = '\n' → k < 2) →
      collapseNl k s = s := by
  intro s
  induction s with
  | nil => intro k _ _; rfl
  | cons c0 rest ih =>
    intro k hch hk
    by_cases h0 : c0 = '\n'
    · have hk2 : ¬ 2 ≤ k := by
        have := hk c0 rfl h0
        omega
      rw [show collapseNl k (c0 :: rest) = '\n' :: collapseNl (k + 1) rest
        from by simp [collapseNl, h0, hk2]]
      rw [h0]
      congr 1
      apply ih (k + 1) (List.chain'_cons'.1 hch).2
      intro y hy hynl
      exfalso
      have hr := (List.chain'_cons'.1 hch).1 y hy
      unfold R3 at hr
      exact hr ⟨h0, hynl⟩
    · rw [show collapseNl k (c0 :: rest) = c0 :: collapseNl 0 rest from by
        simp [collapseNl, h0]]
      congr 1
      exact ih 0 (List.chain'_cons'.1 hch).2 (fun y hy hynl => by omega)

/-- Lines of the normalizer are non-empty. -/
lemma normLines_ne_nil (t : Str) : ∀ l ∈ normLines t, l ≠ [] := by
  intro l hl
  have := List.of_mem_filter hl
  simpa using this

/-- Lines of the normalizer are stripped. -/
lemma normLines_stripped (t : Str) : ∀ l ∈ normLines t, stripStr l = l := by
  intro l hl
  have hm := (List.mem_filter.1 hl).1
  obtain ⟨l0, _, rfl⟩ := List.mem_map.1 hm
  exact stripStr_idem l0

/-- Lines of the normalizer are newline-free. -/
lemma normLines_no_nl (t : Str) : ∀ l ∈ normLines t, '\n' ∉ l := by
  intro l hl hmem
  have hm := (List.mem_filter.1 hl).1
  obtain ⟨l0, hl0, rfl⟩ := List.mem_map.1 hm
  exact splitNl_no_nl _ l0 hl0 (mem_stripStr l0 '\n' hmem)

/-- Lines of the normalizer have no two adjacent space/tab characters. -/
lemma normLines_chain (t : Str) : ∀ l ∈ normLines t, List.Chain' R1 l := by
  intro l hl
  have hm := (List.mem_filter.1 hl).1
  obtain ⟨l0, hl0, rfl⟩ := List.mem_map.1 hm
  apply stripStr_chain_R1
  apply splitNl_chain_R1 _ ?_ l0 hl0
  exact collapseNl_chain_R1 0 _ (delNlST_chain_R1 false _ (collapseST_chain false t))

/-- Lines of the normalizer contain no tab. -/
lemma normLines_no_tab (t : Str) :
    ∀ l ∈ normLines t, ∀ c ∈ l, c ≠ '\t' := by
  intro l hl c hc
  have hm := (List.mem_filter.1 hl).1
  obtain ⟨l0, hl0, rfl⟩ := List.mem_map.1 hm
  have h1 : c ∈ l0 := mem_stripStr l0 c hc
  have h2 := splitNl_mem_chars _ l0 hl0 c h1
  have h3 := collapseNl_mem 0 _ c h2
  have h4 := delNlST_mem false _ c h3
  exact collapseST_no_tab false t c h4

/-- The end characters of each normalizer line are not whitespace. -/
lemma normLines_head_not (t : Str) :
    ∀ l ∈ normLines t, ∀ y, l.head? = some y → isPyWs y = false := by
  intro l hl y hy
  have hs := normLines_stripped t l hl
  rw [← hs] at hy
  exact stripStr_head_not l y hy

/-- The last character of each normalizer line is not whitespace. -/
lemma normLines_getLast_not (t : Str) :
    ∀ l ∈ normLines t, ∀ y, l.getLast? = some y → isPyWs y = false := by
  intro l hl y hy
  have hs := normLines_stripped t l hl
  rw [← hs] at hy
  exact stripStr_getLast_not l y hy

/-- A newline-free string trivially satisfies the newline-guarded chains. -/
lemma chain'_R2_of_no_nl (l : Str) (h : '\n' ∉ l) : List.Chain' R2 l := by
  induction l with
  | nil => simp
  | cons a r ih =>
    rw [List.chain'_cons']
    refine ⟨?_, ih (fun hm => h (List.mem_cons_of_mem a hm))⟩
    intro y _ ha
    exact absurd (ha ▸ List.mem_cons_self a r) h

/-- A newline-free string has no two adjacent newlines. -/
lemma chain'_R3_of_no_nl (l : Str) (h : '\n' ∉ l) : List.Chain' R3 l := by
  induction l with
  | nil => simp
  | cons a r ih =>
    rw [List.chain'_cons']
    refine ⟨?_, ih (fun hm => h (List.mem_cons_of_mem a hm))⟩
    intro y _ hand
    exact absurd (hand.1 ▸ List.mem_cons_self a r) h

/-- The rejoined normalizer output keeps the no-adjacent-space/tab chain. -/
lemma res_chain_R1 (t : Str) : List.Chain' R1 (joinNl (normLines t)) := by
  apply chain'_joinNl R1 (normLines t) (normLines_ne_nil t) (normLines_chain t)
  · intro l _ a _
    exact fun hand => by
      have := hand.2
      rw [show isST '\n' = false from rfl] at this
      exact Bool.false_ne_true this
  · intro l _ b _
    exact fun hand => by
      have := hand.1
      rw [show isST '\n' = false from rfl] at this
      exact Bool.false_ne_true this

/-- The rejoined normalizer output has no space/tab after a newline. -/
lemma res_chain_R2 (t : Str) : List.Chain' R2 (joinNl (normLines t)) := by
  apply chain'_joinNl R2 (normLines t) (normLines_ne_nil t)
  · intro l hl
    exact chain'_R2_of_no_nl l (normLines_no_nl t l hl)
  · intro l _ a _ _
    exact rfl
  · intro l hl b hb _
    have hws := normLines_head_not t l hl b hb
    by_contra hst
    have hst2 : isST b = true := by
      cases hx : isST b with
      | false => exact absurd hx hst
      | true => rfl
    rw [isST_isPyWs hst2] at hws
    exact Bool.noConfusion hws

/-- The rejoined normalizer output has no two adjacent newlines. -/
lemma res_chain_R3 (t : Str) : List.Chain' R3 (joinNl (normLines t)) := by
  apply chain'_joinNl R3 (normLines t) (normLines_ne_nil t)
  · intro l hl
    exact chain'_R3_of_no_nl l (normLines_no_nl t l hl)
  · intro l hl a ha
    intro hand
    exact normLines_no_nl t l hl
      (hand.1 ▸ List.mem_of_mem_getLast? ha)
  · intro l hl b hb
    intro hand
    exact normLines_no_nl t l hl
      (hand.2 ▸ List.mem_of_mem_head? hb)

/-- The rejoined normalizer output contains no tab. -/
lemma res_no_tab (t : Str) :
    ∀ c ∈ joinNl (normLines t), c ≠ '\t' := by
  intro c hc
  rcases mem_joinNl (normLines t) c hc with h | ⟨l, hl, hcl⟩
  · subst h; decide
  · exact normLines_no_tab t l hl c hcl

/-- The final strip of the normalizer is the identity on the joined lines. -/
lemma stripStr_joinNl_lines (t : Str) :
    stripStr (joinNl (normLines t)) = joinNl (normLines t) := by
  apply stripStr_eq_self_of
  · intro y hy
    obtain ⟨l, hl, hly⟩ :=
      joinNl_head_mem (normLines t) (normLines_ne_nil t) y hy
    exact normLines_head_not t l hl y hly
  · intro y hy
    obtain ⟨l, hl, hly⟩ :=
      joinNl_getLast_mem (normLines t) (normLines_ne_nil t) y hy
    exact normLines_getLast_not t l hl y hly

/-- For non-empty input, the normalizer output is exactly the joined lines. -/
lemma normalize_eq_join (t : Str) (h : t ≠ []) :
    normalize_text t = joinNl (normLines t) := by
  unfold normalize_text
  rw [if_neg h]
  exact stripStr_joinNl_lines t

/-- A list is unchanged by mapping a function that fixes its elements. -/
lemma map_self_of (L : List Str) (f : Str → Str) (h : ∀ l ∈ L, f l = l) :
    L.map f = L := by
  conv_rhs => rw [← List.map_id L]
  exact List.map_congr_left h

/-- C8: the extractor's text normalization is idempotent. -/
theorem C8_normalize_idempotent :
    ∀ t : Str, normalize_text (normalize_text t) = normalize_text t := by
  intro t
  by_cases ht : t = []
  · subst ht; rfl
  · have hres : normalize_text t = joinNl (normLines t) :=
      normalize_eq_join t ht
    by_cases hres0 : normalize_text t = []
    · rw [hres0]; rfl
    · have hLne : normLines t ≠ [] := by
        intro he
        apply hres0
        rw [hres, he]
        rfl
      have hcol : collapseST false (normalize_text t) = normalize_text t := by
        rw [hres]
        exact collapseST_id _ false (res_no_tab t) (res_chain_R1 t) (by simp)
      have hdel : delNlST false (normalize_text t) = normalize_text t := by
        rw [hres]
        exact delNlST_id _ false (res_chain_R2 t) (by simp)
      have hcnl : collapseNl 0 (normalize_text t) = normalize_text t := by
        rw [hres]
        exact collapseNl_id _ 0 (res_chain_R3 t) (fun y _ _ => by omega)
      have hsplit : splitNl (normalize_text t) = normLines t := by
        rw [hres]
        exact splitNl_joinNl (normLines t) (normLines_no_nl t) hLne
      have hmap : (normLines t).map stripStr = normLines t :=
        map_self_of (normLines t) stripStr (normLines_stripped t)
      have hfil : (normLines t).filter (fun l => l ≠ []) = normLines t := by
        rw [List.filter_eq_self]
        intro a ha
        exact decide_eq_true (normLines_ne_nil t a ha)
      have hlines : normLines (normalize_text t) = normLines t := by
        rw [show normLines (normalize_text t) =
          ((splitNl (collapseNl 0 (delNlST false
            (collapseST false (normalize_text t))))).map stripStr).filter
            (fun l => l ≠ []) from rfl]
        rw [hcol, hdel, hcnl, hsplit, hmap, hfil]
      rw [normalize_eq_join (normalize_text t) hres0, hlines, ← hres]

/-- C8 (witness): idempotence at a concrete input. -/
theorem C8_witness :
    normalize_text (normalize_text (strChars "a \t b\n\n\nc")) =
      normalize_text (strChars "a \t b\n\n\nc") :=
  C8_normalize_idempotent (strChars "a \t b\n\n\nc")

/-- C4 (counterexample): two paragraphs separated by a single blank line lose
the blank line under normalization — the claim says it is preserved. -/
theorem C4_counterexample :
    normalize_text (strChars "a\n\nb") = strChars "a\nb" ∧
    normalize_text (strChars "a\n\nb") ≠ strChars "a\n\nb" := by
  exact ⟨by decide, by decide⟩

/-- C4 (amended): normalization collapses space/tab runs, collapses long
newline runs, strips every line, and then drops every empty line (not only
those surrounded by empty lines): every line of a non-empty normalized
output is non-empty, and a single blank line between two paragraphs is
removed. -/
theorem C4_normalize_drops_every_empty_line :
    (∀ t : Str, normalize_text t ≠ [] →
      ∀ l ∈ splitNl (normalize_text t), l ≠ []) ∧
    normalize_text (strChars "x  y\t z\n\na b  \n\n\n\nc") =
      strChars "x y z\na b\nc" := by
  constructor
  · intro t hres0 l hl
    have ht : t ≠ [] := by
      intro he
      apply hres0
      rw [he]
      rfl
    have hres : normalize_text t = joinNl (normLines t) :=
      normalize_eq_join t ht
    have hLne : normLines t ≠ [] := by
      intro he
      apply hres0
      rw [hres, he]
      rfl
    rw [hres, splitNl_joinNl (normLines t) (normLines_no_nl t) hLne] at hl
    exact normLines_ne_nil t l hl
  · decide

/-- C4 (witness): the general clause of the amended theorem applied at the
two-paragraph input. -/
theorem C4_witness :
    normalize_text (strChars "a\n\nb") ≠ [] ∧
    ∀ l ∈ splitNl (normalize_text (strChars "a\n\nb")), l ≠ [] :=
  ⟨by decide, C4_normalize_drops_every_empty_line.1 (strChars "a\n\nb")
    (by decide)⟩

end RagPipeline
